import Mathlib

/-!
Verification of the video-sweep repository.

Python strings are embedded as `List Char` (a sequence of Unicode scalar
values).  Python's regex class `\d` and `str.isdigit` are embedded as
`Char.isDigit` (ASCII digits), Python's `\s` / `str.strip()` whitespace as
`Char.isWhitespace`, and `str.lower`/`str.upper` as `Char.toLower`/
`Char.toUpper`; these agree on all ASCII inputs, which is the domain the
repository manipulates.  Paths are POSIX (`os.path` with separator '/',
no alternate separator).
-/

set_option maxHeartbeats 1000000

/-- Characters forbidden in Windows filenames, from renamer.sanitize_filename. -/
def isForbidden (c : Char) : Bool :=
  c = '<' || c = '>' || c = ':' || c = '\"' || c = '/' || c = '\\' || c = '|' || c = '?' || c = '*'

/-- renamer.sanitize_filename: remove the Windows-forbidden characters,
keeping everything else (periods and dashes included). -/
def sanitize_filename (s : List Char) : List Char :=
  s.filter (fun c => !(isForbidden c))

/-- Right-strip: remove the longest suffix of characters satisfying p
(the right half of Python str.strip). -/
def rstrip (p : Char → Bool) : List Char → List Char
  | [] => []
  | c :: s =>
    match rstrip p s with
    | [] => if p c then [] else [c]
    | r => c :: r

/-- Python str.strip() : drop leading and trailing whitespace. -/
def stripWS (s : List Char) : List Char :=
  rstrip Char.isWhitespace (s.dropWhile Char.isWhitespace)

/-- The character set of Python str.strip(" .") : space or period. -/
def isSpaceDot (c : Char) : Bool :=
  c = ' ' || c = '.'

/-- Python str.strip(" .") : drop leading and trailing spaces and periods. -/
def stripSpaceDot (s : List Char) : List Char :=
  rstrip isSpaceDot (s.dropWhile isSpaceDot)

/-- Worker for collapseWS; the flag records whether the scanner is inside a
whitespace run whose single replacement space has already been emitted. -/
def collapseWSAux : Bool → List Char → List Char
  | _, [] => []
  | inRun, c :: s =>
    if c.isWhitespace then
      if inRun then collapseWSAux true s else ' ' :: collapseWSAux true s
    else c :: collapseWSAux false s

/-- Python re.sub(r"\s+", " ", s) : replace every maximal whitespace run
by a single space. -/
def collapseWS (s : List Char) : List Char :=
  collapseWSAux false s

/-- Python str.replace(".", " ") specialised to the renamer's use. -/
def dotToSpace (s : List Char) : List Char :=
  s.map (fun c => if c = '.' then ' ' else c)

/-- Index of the last character satisfying p (Python str.rfind, as an Option). -/
def rfindIdx (p : Char → Bool) : List Char → Option Nat
  | [] => none
  | c :: s =>
    match rfindIdx p s with
    | some i => some (i + 1)
    | none => if p c then some 0 else none

/-- Start of the basename: one past the last slash (0 when there is none). -/
def sepIdxOf (s : List Char) : Nat :=
  match rfindIdx (fun c => c = '/') s with
  | some i => i + 1
  | none => 0

/-- posixpath.splitext: split off the extension at the last dot, unless every
character before that dot (after the last slash) is itself a dot. -/
def splitext (s : List Char) : List Char × List Char :=
  match rfindIdx (fun c => c = '.') s with
  | none => (s, [])
  | some d =>
    if sepIdxOf s ≤ d ∧
        (((s.drop (sepIdxOf s)).take (d - sepIdxOf s)).any (fun c => c ≠ '.')) then
      (s.take d, s.drop d)
    else (s, [])

/-- posixpath.basename: everything after the last slash. -/
def basename (s : List Char) : List Char :=
  ((s.reverse.takeWhile (fun c => c ≠ '/'))).reverse

/-- posixpath.dirname: everything before the last slash (with the POSIX
root-preservation rule). -/
def dirname (p : List Char) : List Char :=
  match rfindIdx (fun c => c = '/') p with
  | none => []
  | some i =>
    let head := p.take (i + 1)
    if head.any (fun c => c ≠ '/') then (head.reverse.dropWhile (fun c => c = '/')).reverse
    else head

/-- posixpath.join for two components. -/
def pathJoin (a b : List Char) : List Char :=
  if b.head? = some '/' then b
  else if a = [] then b
  else if a.getLast? = some '/' then a ++ b
  else a ++ '/' :: b

/-- Strip every '[' and ']' (renamer: name.replace("[", "").replace("]", "")). -/
def stripBrackets (s : List Char) : List Char :=
  s.filter (fun c => c ≠ '[' && c ≠ ']')

/-- Does re.match(r"^(\d{4})", s) succeed, i.e. do the first four characters
exist and are they all digits? -/
def startsRun4 : List Char → Bool
  | a :: b :: c :: d :: _ => a.isDigit && b.isDigit && c.isDigit && d.isDigit
  | _ => false

/-- Position of the first four-digit run: re.search(r"(\d{4})", s).start(). -/
def findRun4 : List Char → Option Nat
  | [] => none
  | c :: s => if startsRun4 (c :: s) then some 0 else (findRun4 s).map (· + 1)

/-- One attempt of re.search(r"[\[(](\d{4})[\])]", ...) at the head of the
string: an opening bracket or parenthesis, four digits, then a closing
bracket or parenthesis (the opener and closer are independent classes). -/
def wrappedYearAt : List Char → Option (List Char)
  | o :: a :: b :: c :: d :: e :: _ =>
    if (o = '[' || o = '(') && a.isDigit && b.isDigit && c.isDigit && d.isDigit
        && (e = ']' || e = ')') then
      some [a, b, c, d]
    else none
  | _ => none

/-- re.search(r"[\[(](\d{4})[\])]", s): the year digits of the leftmost match. -/
def findWrappedYear : List Char → Option (List Char)
  | [] => none
  | c :: s =>
    match wrappedYearAt (c :: s) with
    | some y => some y
    | none => findWrappedYear s

/-- renamer.movie_new_filename, transcribed from src/video_sweep/renamer.py
lines 17-43.  Returns none exactly where the Python returns None. -/
def movie_new_filename (filename : List Char) : Option (List Char) :=
  let name := (splitext filename).1
  let ext := (splitext filename).2
  let name_clean := stripBrackets name
  if startsRun4 name_clean then
    -- m_start branch: the leading four digits are the title (group(1).strip()
    -- is the identity on four digit characters, kept here for fidelity)
    let title := stripWS (name_clean.take 4)
    match findWrappedYear name with
    | some year => some (sanitize_filename (title ++ ' ' :: '[' :: (year ++ ']' :: ext)))
    | none => some (sanitize_filename (title ++ ext))
  else
    match findRun4 name_clean with
    | none => none
    | some i =>
      let year := (name_clean.drop i).take 4
      let title := collapseWS (stripSpaceDot (stripWS (dotToSpace (name_clean.take i))))
      some (sanitize_filename (title ++ ' ' :: '[' :: (year ++ ']' :: ext)))

/-- re.sub(r"\(\d{4}\)", "", name): delete every parenthesised four-digit
group, scanning left to right. -/
def removeParenYears : List Char → List Char
  | '(' :: a :: b :: c :: d :: ')' :: rest =>
    if a.isDigit && b.isDigit && c.isDigit && d.isDigit then removeParenYears rest
    else '(' :: removeParenYears (a :: b :: c :: d :: ')' :: rest)
  | c :: rest => c :: removeParenYears rest
  | [] => []

/-- Does re.search(r"S(\d{2})E(\d{2})", ..., re.IGNORECASE) match at the head? -/
def epAt : List Char → Bool
  | s :: a :: b :: e :: c :: d :: _ =>
    (s = 'S' || s = 's') && a.isDigit && b.isDigit && (e = 'E' || e = 'e')
      && c.isDigit && d.isDigit
  | _ => false

/-- Start position of the leftmost S##E## match (case-insensitive). -/
def findEp : List Char → Option Nat
  | [] => none
  | c :: s => if epAt (c :: s) then some 0 else (findEp s).map (· + 1)

/-- Numeric value of two digit characters (Python int on a two-digit string). -/
def digit2 (a b : Char) : Nat :=
  (a.toNat - 48) * 10 + (b.toNat - 48)

/-- renamer.series_new_filename, transcribed from renamer.py lines 110-132.
Returns (series_name, season_num, episode_code, new_filename) or none. -/
def series_new_filename (filename : List Char) :
    Option (List Char × Nat × List Char × List Char) :=
  let name0 := (splitext filename).1
  let ext := (splitext filename).2
  let name := removeParenYears name0
  match findEp name with
  | none => none
  | some i =>
    let matched := (name.drop i).take 6
    let season_num :=
      match (name.drop (i + 1)).take 2 with
      | [a, b] => digit2 a b
      | _ => 0
    let episode_code := matched.map Char.toUpper
    let series_name := collapseWS
      (stripWS ((name.take i).map (fun c => if c = '.' then ' ' else if c = '-' then ' ' else c)))
    let series_name := stripSpaceDot series_name
    some (series_name, season_num, episode_code,
      series_name ++ ' ' :: (episode_code ++ ext))

/-- Tail test of the classifier regex [Ss]\d+[Ee]\d+ once at least one digit
has been read: either E and a digit follow now, or another digit continues
the run.  This captures the backtracking search exactly: a match exists iff
some split of the digit run works. -/
def sePatAfterDigit : List Char → Bool
  | e :: c :: rest =>
    ((e = 'E' || e = 'e') && c.isDigit) || (e.isDigit && sePatAfterDigit (c :: rest))
  | _ => false

/-- Does [Ss]\d+[Ee]\d+ match starting at the head of the string? -/
def sePatAt : List Char → Bool
  | s :: a :: rest => (s = 'S' || s = 's') && a.isDigit && sePatAfterDigit (a :: rest)
  | _ => false

/-- classify_video, transcribed from src/video_sweep/classifier.py: series
iff re.search(r"[Ss]\d+[Ee]\d+", basename) succeeds, else movie. -/
def classify_video (filepath : List Char) : List Char :=
  if (basename filepath).tails.any (fun t => sePatAt t) then
    ['s', 'e', 'r', 'i', 'e', 's']
  else ['m', 'o', 'v', 'i', 'e']

/-! ## Finder -/

/-- finder.VIDEO_EXTENSIONS. -/
def VIDEO_EXTENSIONS : List (List Char) :=
  [".mp4".data, ".mkv".data, ".avi".data]

/-- Python str.lower, character by character. -/
def lowerChars (s : List Char) : List Char :=
  s.map Char.toLower

/-- finder.find_videos: the extension filter of the recursive walk.  The walk
itself (os.walk) is I/O glue; it is abstracted as the list of file paths
found under the source root, in walk order. -/
def find_videos (walked : List (List Char)) : List (List Char) :=
  walked.filter (fun f => VIDEO_EXTENSIONS.contains (lowerChars (splitext f).2))

/-- Does the file's basename begin with the macOS metadata prefix "._"
(the platform-metadata prefix skipped by the directory scan, as exercised by
test_find_files_ignores_macos_metadata)? -/
def isMetaFile (f : List Char) : Bool :=
  match basename f with
  | '.' :: '_' :: _ => true
  | _ => false

/-- Modelled from the spec: finder.find_files, the directory scan used by the
CLI.  The function is called by cli.main and exercised by the repository's
tests, but its definition is absent from the snapshot's finder.py (which only
contains find_videos).  Spec section 6: recursive walk of a source root;
partitions files by the extension allow-list (case-insensitive) into videos
vs. everything else; files whose name begins with a platform-metadata prefix
are excluded entirely from both sets.  As for find_videos, the walk is
abstracted as the list of file paths under the root. -/
def find_files (walked : List (List Char)) : List (List Char) × List (List Char) :=
  match walked with
  | [] => ([], [])
  | f :: rest =>
    let vn := find_files rest
    if isMetaFile f then vn
    else if VIDEO_EXTENSIONS.contains (lowerChars (splitext f).2) then (f :: vn.1, vn.2)
    else (vn.1, f :: vn.2)

/-! ## Filesystem model and the mover

The filesystem is a finite map from paths to file contents (tagged by a
natural number) together with a set of existing directories.  This is the
state rename_and_move interacts with through os.makedirs, os.path.exists
and shutil.move. -/

structure FS where
  files : List (List Char × Nat)
  dirs : List (List Char)
deriving DecidableEq

/-- Content of the file at path p, if a file exists there. -/
def lookupFile (fs : FS) (p : List Char) : Option Nat :=
  (fs.files.find? (fun e => decide (e.1 = p))).map (·.2)

/-- os.path.exists: true for files and directories alike. -/
def existsPath (fs : FS) (p : List Char) : Bool :=
  (lookupFile fs p).isSome || decide (p ∈ fs.dirs)

/-- The chain of proper ancestors of a directory path, by iterated dirname
(fuel-bounded; dirname strictly shortens any path other than the root). -/
def ancestorChain : Nat → List Char → List (List Char)
  | 0, _ => []
  | fuel + 1, d =>
    let p := dirname d
    if p = d ∨ p = [] then [] else p :: ancestorChain fuel p

/-- os.makedirs(d, exist_ok=True): ensure d and all its ancestors exist.
Re-adding an existing directory is harmless because existence is membership. -/
def makedirs (fs : FS) (d : List Char) : FS :=
  { fs with dirs := d :: (ancestorChain d.length d ++ fs.dirs) }

inductive MoveOutcome
  | moved
  | dryRunPrint
  | skippedNoName
  | skippedCollision
  | failed
deriving DecidableEq

/-- fs.files with the entry at path p removed. -/
def removeFile (fs : FS) (p : List Char) : List (List Char × Nat) :=
  fs.files.filter (fun e => !(decide (e.1 = p)))

/-- The tail of rename_and_move shared by all three kinds: the dry-run check,
then shutil.move inside try/except.  shutil.move is modelled as succeeding
whenever the source is an existing file (the destination's parent directory
has been created by the preceding makedirs and the destination itself was
checked not to exist); a raised OSError is caught and reported per file,
which is the .failed outcome. -/
def finishMove (fs : FS) (filepath target_path : List Char) (dry_run : Bool) :
    FS × MoveOutcome :=
  if dry_run then (fs, .dryRunPrint)
  else
    match lookupFile fs filepath with
    | none => (fs, .failed)
    | some content =>
      ({ fs with files := (target_path, content) :: removeFile fs filepath }, .moved)

/-- Python f"Season {n}". -/
def seasonFolder (n : Nat) : List Char :=
  "Season ".data ++ (Nat.repr n).data

/-- The movie branch's new_filename computation: the OMDb-suggested name with
the original extension when a (truthy) suggestion is given, else the
normalizer's output. -/
def movieTargetName (filename : List Char) (osn : Option (List Char)) :
    Option (List Char) :=
  match osn with
  | some s =>
    if s ≠ [] then some (sanitize_filename (s ++ (splitext filename).2))
    else movie_new_filename filename
  | none => movie_new_filename filename

/-- renamer.rename_and_move, transcribed from renamer.py lines 46-107.
osn is the omdb_suggested_name keyword argument; Python truthiness of the
optional string is some s with s nonempty. -/
def rename_and_move (fs : FS) (filepath kind target_dir : List Char)
    (dry_run : Bool) (osn : Option (List Char)) : FS × MoveOutcome :=
  let filename := basename filepath
  let fs1 := makedirs fs target_dir
  if kind = "movie".data then
    match movieTargetName filename osn with
    | none => (fs1, .skippedNoName)
    | some nf =>
      if nf = [] then (fs1, .skippedNoName)
      else
        let target_path := pathJoin target_dir nf
        if existsPath fs1 target_path then (fs1, .skippedCollision)
        else finishMove fs1 filepath target_path dry_run
  else if kind = "series".data then
    match series_new_filename filename with
    | none => (fs1, .skippedNoName)
    | some (series_name, season_num, _, nf) =>
      let target_path :=
        pathJoin (pathJoin (pathJoin target_dir series_name) (seasonFolder season_num)) nf
      let fs2 := makedirs fs1 (dirname target_path)
      if existsPath fs2 target_path then (fs2, .skippedCollision)
      else finishMove fs2 filepath target_path dry_run
  else
    let target_path := pathJoin target_dir filename
    if existsPath fs1 target_path then (fs1, .skippedCollision)
    else finishMove fs1 filepath target_path dry_run

/-- The target path rename_and_move will check for collision, as a function of
the inputs alone (none in the no-name cases where no target is computed). -/
def computedTarget (filepath kind target_dir : List Char)
    (osn : Option (List Char)) : Option (List Char) :=
  let filename := basename filepath
  if kind = "movie".data then
    match movieTargetName filename osn with
    | none => none
    | some nf => if nf = [] then none else some (pathJoin target_dir nf)
  else if kind = "series".data then
    match series_new_filename filename with
    | none => none
    | some (series_name, season_num, _, nf) =>
      some (pathJoin (pathJoin (pathJoin target_dir series_name) (seasonFolder season_num)) nf)
  else some (pathJoin target_dir filename)

structure MoveJob where
  path : List Char
  kind : List Char
  target : List Char
  osn : Option (List Char)
deriving DecidableEq

/-- The CLI's move loop (cli.main): rename_and_move applied to each entry in
turn, threading the filesystem. -/
def moveAll (fs : FS) (dry : Bool) : List MoveJob → FS × List MoveOutcome
  | [] => (fs, [])
  | j :: rest =>
    let r1 := rename_and_move fs j.path j.kind j.target dry j.osn
    let r2 := moveAll r1.1 dry rest
    (r2.1, r1.2 :: r2.2)

/-! ## OMDb lookup and validation

The HTTP layer (requests.get) is modelled as an oracle: the n-th request of
the run yields the n-th outcome of a stream, which is either a status code
with a decoded JSON body or a raised exception (requests can raise on
timeouts and connection failures; the repository's own tests assert that
query_omdb propagates such exceptions).  Computations that perform requests
take the next request index and return it threaded through an Except, whose
error case is a propagating Python exception.

difflib.SequenceMatcher(None, a, b).ratio() is an external library function;
it enters only as the similarity oracle parameter sim, applied to the
already-lowercased candidate and intended titles exactly as in the source. -/

structure OmdbData where
  title : Option (List Char)
  year : Option (List Char)
deriving DecidableEq

structure SearchItem where
  title : List Char
  year : List Char
  imdbID : Option (List Char)
deriving DecidableEq

inductive OmdbResp
  | found (d : OmdbData)
  | searchResults (items : List SearchItem)
  | notFound
deriving DecidableEq

inductive NetOutcome
  | ok (status : Nat) (resp : OmdbResp)
  | exn
deriving DecidableEq

abbrev Net := Nat → NetOutcome

/-- One requests.get call: consume the next oracle outcome. -/
def httpGet (net : Net) (n : Nat) : Except Unit ((Nat × OmdbResp) × Nat) :=
  match net n with
  | .exn => .error ()
  | .ok st r => .ok ((st, r), n + 1)

/-- The best-match selection loop of fuzzy_search: score each candidate by
sim on lowercased titles, +1/5 when the candidate year equals the intended
year and -1/5 when it does not; keep the strictly best scorer. -/
def bestCandidate (sim : List Char → List Char → Rat) (intended : List Char)
    (iy : Option (List Char)) (items : List SearchItem) : Option SearchItem × Rat :=
  items.foldl
    (fun acc item =>
      let r := sim (lowerChars item.title) (lowerChars intended)
      let score : Rat :=
        match iy with
        | some y => if item.year = y then r + 1 / 5 else r - 1 / 5
        | none => r
      if score > acc.2 then (some item, score) else acc)
    (none, 0)

/-- omdb.fuzzy_search (the inner helper of query_omdb): an s= search request,
candidate scoring, and on acceptance an i= lookup request; any non-200
status or missing data yields none; the acceptance threshold is 4/5 with a
year constraint and 9/10 without. -/
def fuzzy_search (sim : List Char → List Char → Rat) (net : Net)
    (searchTitle intended : List Char) (iy : Option (List Char)) (n : Nat) :
    Except Unit (Option OmdbData × Nat) :=
  match httpGet net n with
  | .error e => .error e
  | .ok ((st, resp), n1) =>
    if st = 200 then
      match resp with
      | .searchResults items =>
        let best := bestCandidate sim intended iy items
        let threshold : Rat := match iy with | some _ => 4 / 5 | none => 9 / 10
        match best.1 with
        | some b =>
          if best.2 ≥ threshold then
            match b.imdbID with
            | some _ =>
              match httpGet net n1 with
              | .error e => .error e
              | .ok ((st2, resp2), n2) =>
                if st2 = 200 then
                  match resp2 with
                  | .found d => .ok (some d, n2)
                  | _ => .ok (none, n2)
                else .ok (none, n2)
            | none => .ok (none, n1)
          else .ok (none, n1)
        | none => .ok (none, n1)
      | _ => .ok (none, n1)
    else .ok (none, n1)

/-- Maximal alphabetic runs: re.findall(r"[A-Za-z]+", s). -/
def alphaWordsAux (cur : List Char) : List Char → List (List Char)
  | [] => if cur = [] then [] else [cur.reverse]
  | c :: s =>
    if c.isAlpha then alphaWordsAux (c :: cur) s
    else if cur = [] then alphaWordsAux [] s
    else cur.reverse :: alphaWordsAux [] s

def alphaWords (s : List Char) : List (List Char) :=
  alphaWordsAux [] s

/-- Python " ".join. -/
def joinSpace : List (List Char) → List Char
  | [] => []
  | [w] => w
  | w :: ws => w ++ ' ' :: joinSpace ws

/-- Python range(k, 1, -1) as a list: [k, k-1, ..., 2]. -/
def downTo2 : Nat → List Nat
  | 0 => []
  | 1 => []
  | k + 2 => (k + 2) :: downTo2 (k + 1)

/-- The progressively-shorter-prefix retry loop at the end of query_omdb. -/
def tryFuzzyList (sim : List Char → List Char → Rat) (net : Net)
    (titles : List (List Char)) (iy : Option (List Char)) (n : Nat) :
    Except Unit (Option OmdbData × Nat) :=
  match titles with
  | [] => .ok (none, n)
  | t :: rest =>
    match fuzzy_search sim net t t iy n with
    | .error e => .error e
    | .ok (some d, n1) => .ok (some d, n1)
    | .ok (none, n1) => tryFuzzyList sim net rest iy n1

/-- omdb.query_omdb, transcribed from omdb.py lines 18-96: a direct t= lookup,
then the fuzzy fallback on the full title, the simplified alphabetic title,
and progressively shorter word prefixes.  hasKey models the configured API
key; without it no request is made and the result is none. -/
def query_omdb (sim : List Char → List Char → Rat) (hasKey : Bool) (net : Net)
    (title : List Char) (year : Option (List Char)) (n : Nat) :
    Except Unit (Option OmdbData × Nat) :=
  if !hasKey then .ok (none, n)
  else
    match httpGet net n with
    | .error e => .error e
    | .ok ((st, resp), n1) =>
      let direct : Option OmdbData :=
        if st = 200 then
          match resp with
          | .found d => some d
          | _ => none
        else none
      match direct with
      | some d => .ok (some d, n1)
      | none =>
        match fuzzy_search sim net title title year n1 with
        | .error e => .error e
        | .ok (some d, n2) => .ok (some d, n2)
        | .ok (none, n2) =>
          let words := alphaWords title
          if words = [] then .ok (none, n2)
          else
            let simplified := joinSpace words
            match
              (if simplified ≠ title then fuzzy_search sim net simplified simplified year n2
               else .ok (none, n2)) with
            | .error e => .error e
            | .ok (some d, n3) => .ok (some d, n3)
            | .ok (none, n3) =>
              tryFuzzyList sim net
                ((downTo2 (words.length - 1)).map (fun i => joinSpace (words.take i)))
                year n3

/-- Modelled from the spec: the result construction of omdb.get_suggested_name.
The snapshot's omdb.py is cut off inside this function (its helpers are
present but the return of the formatted name is missing); spec section 4.5
says a confirmed match is formatted as Title (Year), and the repository's
tests pin the behaviour: a dict with Title and Year yields "Title (Year)",
and None or a dict missing either field yields None. -/
def get_suggested_name (d : Option OmdbData) : Option (List Char) :=
  match d with
  | none => none
  | some data =>
    match data.title, data.year with
    | some t, some y => some (t ++ ' ' :: '(' :: (y ++ [')']))
    | _, _ => none

/-- re.sub(r" \((\d{4})\)$", r" [\1]", s): rewrite a trailing " (dddd)" into
" [dddd]". -/
def normParenYearSuffix (s : List Char) : List Char :=
  match s.reverse with
  | ')' :: d :: c :: b :: a :: '(' :: ' ' :: restR =>
    if a.isDigit && b.isDigit && c.isDigit && d.isDigit then
      restR.reverse ++ ' ' :: '[' :: a :: b :: c :: [d, ']']
    else s
  | _ => s

/-- Case-insensitive comparison: Python a.lower() == b.lower(). -/
def lowerEq (a b : List Char) : Bool :=
  decide (lowerChars a = lowerChars b)

/-- renamer.validate_movie_name, transcribed from renamer.py lines 135-153.
The first component mirrors Python's correct value: some true / some false
for the boolean outcomes, none where Python returns None (a match without a
usable suggestion). -/
def validate_movie_name (sim : List Char → List Char → Rat) (hasKey : Bool)
    (net : Net) (title year current_name : List Char) (n : Nat) :
    Except Unit ((Option Bool × Option (List Char)) × Nat) :=
  match query_omdb sim hasKey net title (some year) n with
  | .error e => .error e
  | .ok (none, n1) => .ok ((some false, none), n1)
  | .ok (some d, n1) =>
    match get_suggested_name (some d) with
    | none => .ok ((none, none), n1)
    | some sug =>
      let sn := normParenYearSuffix (sanitize_filename sug)
      if sn = [] then .ok ((some false, some sn), n1)
      else if lowerEq sn current_name then .ok ((some true, none), n1)
      else .ok ((some false, some sn), n1)

/-- One attempted position of re.match(r"(.+?) \[(\d{4})\]", ...): does
" [dddd]" start here? -/
def tyHere : List Char → Option (List Char)
  | ' ' :: '[' :: a :: b :: c :: d :: ']' :: _ =>
    if a.isDigit && b.isDigit && c.isDigit && d.isDigit then some [a, b, c, d]
    else none
  | _ => none

/-- Lazy scan for re.match(r"(.+?) \[(\d{4})\]", stem): the shortest nonempty
prefix followed by " [dddd]"; returns (title, year digits). -/
def tyAux (acc : List Char) : List Char → Option (List Char × List Char)
  | [] => none
  | ch :: rest =>
    match tyHere (ch :: rest) with
    | some y => if acc ≠ [] then some (acc.reverse, y) else tyAux (ch :: acc) rest
    | none => tyAux (ch :: acc) rest

def titleYearMatch (stem : List Char) : Option (List Char × List Char) :=
  tyAux [] stem

/-- One row of the CLI summary's validation columns: valid is some true for
"Yes", some false for "No", none for "-"; suggested is the suggestion cell. -/
structure Row where
  valid : Option Bool
  suggested : Option (List Char)
deriving DecidableEq

/-- The per-video validation step of cli.main (lines 145-222) with the OMDb
columns enabled: classify, derive the movie filename, extract title and year
from it, and validate against OMDb; series rows show "-". -/
def validateOneVideo (sim : List Char → List Char → Rat) (hasKey : Bool)
    (net : Net) (video : List Char) (n : Nat) : Except Unit (Row × Nat) :=
  let filename := basename video
  if classify_video video = "series".data then .ok (⟨none, none⟩, n)
  else
    let new_filename := movie_new_filename filename
    let stem := (splitext (new_filename.getD filename)).1
    match titleYearMatch stem with
    | none => .ok (⟨none, none⟩, n)
    | some (t, y) =>
      match validate_movie_name sim hasKey net t y (t ++ ' ' :: '[' :: (y ++ [']'])) n with
      | .error e => .error e
      | .ok ((valid, sugg), n1) =>
        .ok (⟨valid, sugg.map normParenYearSuffix⟩, n1)

/-- The validation pass over all scanned videos, in scan order. -/
def validateVideos (sim : List Char → List Char → Rat) (hasKey : Bool)
    (net : Net) (videos : List (List Char)) (n : Nat) :
    Except Unit (List Row × Nat) :=
  match videos with
  | [] => .ok ([], n)
  | v :: rest =>
    match validateOneVideo sim hasKey net v n with
    | .error e => .error e
    | .ok (r, n1) =>
      match validateVideos sim hasKey net rest n1 with
      | .error e => .error e
      | .ok (rs, n2) => .ok (r :: rs, n2)

/-- cli.main wraps the whole scan-classify-validate-move pipeline in a single
try/except that prints the error and exits with code 1; an exception escaping
any OMDb request therefore aborts the entire run.  This is the exit code of
the run as determined by the validation pass. -/
def validationExitCode (sim : List Char → List Char → Rat) (hasKey : Bool)
    (net : Net) (videos : List (List Char)) : Nat :=
  match validateVideos sim hasKey net videos 0 with
  | .error _ => 1
  | .ok _ => 0

/-! ## Specification-side formulas

These definitions transcribe the spec's own wording (spec sections 4.2 and
8), to be compared with the transcriptions of the source above. -/

/-- The movie title as the spec words it: the text before the first digit
run with periods replaced by spaces, consecutive whitespace collapsed to one
space, and leading/trailing spaces and periods trimmed. -/
def movieTitleSpec (clean : List Char) (i : Nat) : List Char :=
  stripSpaceDot (collapseWS (dotToSpace (clean.take i)))

/-- The spec's output formula for the movie normalizer's general branch,
read literally (no sanitization step): title [year] ext, with the year the
first four-digit run of the bracket-stripped stem. -/
def movieNameUnsanitized (filename : List Char) : Option (List Char) :=
  let stem := (splitext filename).1
  let ext := (splitext filename).2
  let clean := stripBrackets stem
  (findRun4 clean).map (fun i =>
    movieTitleSpec clean i ++ ' ' :: '[' :: (((clean.drop i).take 4) ++ ']' :: ext))

/-- A four-digit run wrapped in an opening bracket or parenthesis and a
closing bracket or parenthesis occurs somewhere in s. -/
def WrappedIn (s : List Char) : Prop :=
  ∃ u o y cl v, s = u ++ o :: (y ++ cl :: v) ∧ (o = '[' ∨ o = '(') ∧
    (cl = ']' ∨ cl = ')') ∧ y.length = 4 ∧ y.all Char.isDigit = true

/-! ## Concrete oracles used by witnesses and counterexamples -/

/-- A network on which every request raises (for example a timeout). -/
def netExn : Net := fun _ => .exn

/-- A network on which every request is answered with an HTTP 404. -/
def net404 : Net := fun _ => .ok 404 .notFound

/-- A network on which every request finds the same movie record. -/
def netFound : Net :=
  fun _ => .ok 200 (.found ⟨some "The Matrix".data, some "1999".data⟩)

/-- A degenerate similarity oracle. -/
def sim0 : List Char → List Char → Rat := fun _ _ => 0

/-- A filesystem in which the computed movie target already exists. -/
def fsColl : FS :=
  ⟨[("/src/a.2023.mp4".data, 0), ("/dst/a [2023].mp4".data, 1)],
    ["/src".data, "/dst".data]⟩

/-- A filesystem with a single source file and no destination directory. -/
def fsOne : FS :=
  ⟨[("/src/a.2023.mp4".data, 0)], ["/src".data]⟩

/-! ## Helper lemmas -/

theorem basename_of_no_slash (s : List Char) (h : ∀ c ∈ s, c ≠ '/') :
    basename s = s := by
  unfold basename
  rw [List.takeWhile_eq_self_iff.2 (by
    intro c hc
    simpa using h c (List.mem_reverse.1 hc))]
  exact s.reverse_reverse

theorem sePatAfterDigit_append (xs : List Char) (e y0 : Char) (rest : List Char)
    (hxs : xs ≠ []) (hall : ∀ c ∈ xs, c.isDigit = true)
    (he : e = 'E' ∨ e = 'e') (hy : y0.isDigit = true) :
    sePatAfterDigit (xs ++ e :: y0 :: rest) = true := by
  induction xs with
  | nil => exact absurd rfl hxs
  | cons x xs ih =>
    have hx : x.isDigit = true := hall x (List.mem_cons_self x xs)
    cases xs with
    | nil =>
      simp only [List.cons_append, List.nil_append, sePatAfterDigit]
      rcases he with h | h <;> simp [h, hx, hy]
    | cons x2 xs2 =>
      have h2 := ih (by simp) (fun c hc => hall c (List.mem_cons_of_mem x hc))
      simp only [List.cons_append] at h2 ⊢
      simp only [sePatAfterDigit]
      simp [hx, h2]

theorem sePatAt_append (u : List Char) (s : Char) (xs : List Char) (e : Char)
    (ys v : List Char) (hs : s = 'S' ∨ s = 's') (he : e = 'E' ∨ e = 'e')
    (hxs : xs ≠ []) (hys : ys ≠ []) (hdx : ∀ c ∈ xs, c.isDigit = true)
    (hdy : ∀ c ∈ ys, c.isDigit = true) :
    sePatAt (s :: (xs ++ e :: (ys ++ v))) = true := by
  cases xs with
  | nil => exact absurd rfl hxs
  | cons x xs2 =>
    cases ys with
    | nil => exact absurd rfl hys
    | cons y0 ys2 =>
      have hx : x.isDigit = true := hdx x (List.mem_cons_self x xs2)
      have hy0 : y0.isDigit = true := hdy y0 (List.mem_cons_self y0 ys2)
      have hafter : sePatAfterDigit ((x :: xs2) ++ e :: y0 :: (ys2 ++ v)) = true :=
        sePatAfterDigit_append (x :: xs2) e y0 (ys2 ++ v) (by simp) hdx he hy0
      simp only [List.cons_append, sePatAt]
      simp only [List.cons_append] at hafter
      rcases hs with h | h <;> simp [h, hx, hafter]

theorem containsSE_of_tail (l t : List Char) (ht : t <:+ l) (h : sePatAt t = true) :
    l.tails.any (fun u => sePatAt u) = true := by
  rw [List.any_eq_true]
  exact ⟨t, (List.mem_tails t l).2 ht, h⟩

/-! ## Claim C5 -/

/-- Claim C5 counterexample: the claim states that the classifier requires
exactly two digits for season and episode, so that classify_video returns
movie on Show.S01E100.mkv; in fact the classifier's regex accepts one or
more digits, the name matches, and classify_video returns series. -/
theorem c5_counterexample :
    classify_video ("Show.S01E100.mkv".data) = "series".data ∧
      ("series".data : List Char) ≠ "movie".data := by
  constructor
  · decide
  · decide

/-- Claim C5, corrected: the classifier's pattern [Ss]\d+[Ee]\d+ accepts one
or more digits each for season and episode, so any slash-free filename
containing S followed by digits, E, and digits — in particular one whose
episode number has three digits such as Show.S01E100.mkv — matches, and
classify_video returns series for it. -/
theorem c5_amended (filepath u xs ys v : List Char) (s e : Char)
    (hf : filepath = u ++ s :: (xs ++ e :: (ys ++ v)))
    (hnoslash : ∀ c ∈ filepath, c ≠ '/')
    (hs : s = 'S' ∨ s = 's') (he : e = 'E' ∨ e = 'e')
    (hxs : xs ≠ []) (hys : ys ≠ [])
    (hdx : ∀ c ∈ xs, c.isDigit = true) (hdy : ∀ c ∈ ys, c.isDigit = true) :
    classify_video filepath = "series".data := by
  unfold classify_video
  rw [basename_of_no_slash filepath hnoslash]
  rw [containsSE_of_tail filepath (s :: (xs ++ e :: (ys ++ v)))
    (by rw [hf]; exact ⟨u, rfl⟩)
    (sePatAt_append u s xs e ys v hs he hxs hys hdx hdy)]
  simp

/-- Witness for c5_amended at Show.S01E100.mkv. -/
theorem c5_amended_witness :
    classify_video ("Show.S01E100.mkv".data) = "series".data :=
  c5_amended ("Show.S01E100.mkv".data) ("Show.".data) ("01".data) ("100".data)
    (".mkv".data) 'S' 'E' (by decide) (by decide) (Or.inl rfl) (Or.inl rfl)
    (by decide) (by decide) (by decide) (by decide)

/-! ## Claim C10 -/

/-- Claim C10: when the paren-year-stripped stem has its first episode-code
match at a token S##E## that is immediately followed by a further digit (a
three-digit episode number), series_new_filename still succeeds, its episode
code is the uppercased six-character S##E## prefix of the token, and the
generated filename drops the remaining episode digit: it is the series name,
a space, that six-character code, and the extension — the extra digit x
appears nowhere in it. -/
theorem c10_truncated_episode (filename stem ext name : List Char) (i : Nat)
    (s a b e c d x : Char) (rest : List Char)
    (hsplit : splitext filename = (stem, ext))
    (hname : removeParenYears stem = name)
    (hfind : findEp name = some i)
    (hdrop : name.drop i = s :: a :: b :: e :: c :: d :: x :: rest)
    (hx : x.isDigit = true) :
    series_new_filename filename =
      some
        (stripSpaceDot (collapseWS (stripWS ((name.take i).map
            (fun ch => if ch = '.' then ' ' else if ch = '-' then ' ' else ch)))),
          digit2 a b,
          [s.toUpper, a.toUpper, b.toUpper, e.toUpper, c.toUpper, d.toUpper],
          stripSpaceDot (collapseWS (stripWS ((name.take i).map
              (fun ch => if ch = '.' then ' ' else if ch = '-' then ' ' else ch)))) ++
            ' ' :: ([s.toUpper, a.toUpper, b.toUpper, e.toUpper, c.toUpper, d.toUpper] ++ ext)) := by
  have htake6 : (name.drop i).take 6 = [s, a, b, e, c, d] := by rw [hdrop]; rfl
  have htake2 : (name.drop (i + 1)).take 2 = [a, b] := by
    have : name.drop (i + 1) = a :: b :: e :: c :: d :: x :: rest := by
      have h1 : name.drop (i + 1) = (name.drop i).drop 1 := by
        rw [List.drop_drop]
      rw [h1, hdrop]; rfl
    rw [this]; rfl
  unfold series_new_filename
  rw [hsplit]
  simp only [hname, hfind, htake6, htake2]
  rfl

/-- Witness for c10_truncated_episode at Show.S01E100.mkv: the episode code
becomes S01E10 and the generated name drops the final 0. -/
theorem c10_truncated_episode_witness :
    series_new_filename ("Show.S01E100.mkv".data) =
      some ("Show".data, 1, "S01E10".data, "Show S01E10.mkv".data) := by
  have h := c10_truncated_episode ("Show.S01E100.mkv".data) ("Show.S01E100".data)
    (".mkv".data) ("Show.S01E100".data) 5 'S' '0' '1' 'E' '1' '0' '0' []
    (by decide) (by decide) (by decide) (by decide) (by decide)
  rw [h]
  decide

/-! ## Claim C6 -/

/-- Claim C6: the directory scan partitions the walked files: the video set
is exactly the non-metadata files whose extension, lowercased, is in the
allow-list; the non-video set is exactly the non-metadata files whose
extension is not; files whose basename begins with the platform-metadata
prefix are in neither set. -/
theorem c6_find_files_partition (walked : List (List Char)) (f : List Char) :
    (f ∈ (find_files walked).1 ↔
      (f ∈ walked ∧ isMetaFile f = false ∧
        VIDEO_EXTENSIONS.contains (lowerChars (splitext f).2) = true)) ∧
    (f ∈ (find_files walked).2 ↔
      (f ∈ walked ∧ isMetaFile f = false ∧
        VIDEO_EXTENSIONS.contains (lowerChars (splitext f).2) = false)) := by
  induction walked with
  | nil => simp [find_files]
  | cons g rest ih =>
    by_cases hm : isMetaFile g = true
    · constructor
      · rw [show find_files (g :: rest) = find_files rest by
          simp only [find_files]; rw [if_pos hm]]
        rw [ih.1]
        constructor
        · rintro ⟨h1, h2, h3⟩; exact ⟨List.mem_cons_of_mem g h1, h2, h3⟩
        · rintro ⟨h1, h2, h3⟩
          rcases List.mem_cons.1 h1 with h | h
          · subst h; rw [hm] at h2; cases h2
          · exact ⟨h, h2, h3⟩
      · rw [show find_files (g :: rest) = find_files rest by
          simp only [find_files]; rw [if_pos hm]]
        rw [ih.2]
        constructor
        · rintro ⟨h1, h2, h3⟩; exact ⟨List.mem_cons_of_mem g h1, h2, h3⟩
        · rintro ⟨h1, h2, h3⟩
          rcases List.mem_cons.1 h1 with h | h
          · subst h; rw [hm] at h2; cases h2
          · exact ⟨h, h2, h3⟩
    · rw [Bool.not_eq_true] at hm
      by_cases hv : VIDEO_EXTENSIONS.contains (lowerChars (splitext g).2) = true
      · have hff : find_files (g :: rest) =
            (g :: (find_files rest).1, (find_files rest).2) := by
          simp only [find_files]; rw [if_neg (by simp [hm]), if_pos hv]
        rw [hff]
        constructor
        · simp only [List.mem_cons]
          constructor
          · rintro (h | h)
            · subst h; exact ⟨Or.inl rfl, hm, hv⟩
            · have := ih.1.1 h; exact ⟨Or.inr this.1, this.2.1, this.2.2⟩
          · rintro ⟨h1, h2, h3⟩
            rcases h1 with h | h
            · exact Or.inl h
            · exact Or.inr (ih.1.2 ⟨h, h2, h3⟩)
        · rw [ih.2]
          constructor
          · rintro ⟨h1, h2, h3⟩; exact ⟨List.mem_cons_of_mem g h1, h2, h3⟩
          · rintro ⟨h1, h2, h3⟩
            rcases List.mem_cons.1 h1 with h | h
            · subst h; rw [hv] at h3; cases h3
            · exact ⟨h, h2, h3⟩
      · rw [Bool.not_eq_true] at hv
        have hff : find_files (g :: rest) =
            ((find_files rest).1, g :: (find_files rest).2) := by
          simp only [find_files]; rw [if_neg (by simp [hm]), if_neg (by rw [hv]; simp)]
        rw [hff]
        constructor
        · rw [ih.1]
          constructor
          · rintro ⟨h1, h2, h3⟩; exact ⟨List.mem_cons_of_mem g h1, h2, h3⟩
          · rintro ⟨h1, h2, h3⟩
            rcases List.mem_cons.1 h1 with h | h
            · subst h; rw [hv] at h3; cases h3
            · exact ⟨h, h2, h3⟩
        · simp only [List.mem_cons]
          constructor
          · rintro (h | h)
            · subst h; exact ⟨Or.inl rfl, hm, hv⟩
            · have := ih.2.1 h; exact ⟨Or.inr this.1, this.2.1, this.2.2⟩
          · rintro ⟨h1, h2, h3⟩
            rcases h1 with h | h
            · exact Or.inl h
            · exact Or.inr (ih.2.2 ⟨h, h2, h3⟩)

/-- Witness for c6_find_files_partition on a concrete walk. -/
theorem c6_find_files_partition_witness :
    ("/r/a.mp4".data : List Char) ∈
      (find_files ["/r/a.mp4".data, "/r/._a.mp4".data, "/r/doc.txt".data]).1 :=
  (c6_find_files_partition ["/r/a.mp4".data, "/r/._a.mp4".data, "/r/doc.txt".data]
    ("/r/a.mp4".data)).1.2 ⟨by decide, by decide, by decide⟩

/-! ## Claims C1 and C2: the mover -/

theorem lookupFile_makedirs (fs : FS) (d p : List Char) :
    lookupFile (makedirs fs d) p = lookupFile fs p := rfl

theorem files_makedirs (fs : FS) (d : List Char) :
    (makedirs fs d).files = fs.files := rfl

theorem existsPath_makedirs (fs : FS) (d p : List Char)
    (h : existsPath fs p = true) : existsPath (makedirs fs d) p = true := by
  unfold existsPath at h ⊢
  simp only [Bool.or_eq_true, decide_eq_true_eq] at h ⊢
  rcases h with h | h
  · exact Or.inl h
  · refine Or.inr ?_
    simp only [makedirs]
    simp [h]

theorem lookupFile_congr_files (fs1 fs2 : FS) (p : List Char)
    (h : fs1.files = fs2.files) : lookupFile fs1 p = lookupFile fs2 p := by
  unfold lookupFile
  rw [h]

/-- Core of the collision analysis: if the computed target path exists in the
starting filesystem, rename_and_move reports the collision skip and the file
map is unchanged. -/
theorem rename_collision_core (fs : FS) (filepath kind target_dir : List Char)
    (osn : Option (List Char)) (dry : Bool) (t : List Char)
    (hT : computedTarget filepath kind target_dir osn = some t)
    (hE : existsPath fs t = true) :
    (rename_and_move fs filepath kind target_dir dry osn).2 =
        MoveOutcome.skippedCollision ∧
      (rename_and_move fs filepath kind target_dir dry osn).1.files = fs.files := by
  simp only [computedTarget] at hT
  simp only [rename_and_move]
  by_cases hk : kind = "movie".data
  · rw [if_pos hk] at hT ⊢
    cases h1 : movieTargetName (basename filepath) osn with
    | none => rw [h1] at hT; simp at hT
    | some nf =>
      rw [h1] at hT
      by_cases h2 : nf = []
      · simp only [h2] at hT
        simp at hT
      · simp only [if_neg h2, Option.some.injEq] at hT
        subst hT
        have hE1 := existsPath_makedirs fs target_dir (pathJoin target_dir nf) hE
        simp [h2, hE1, files_makedirs]
  · rw [if_neg hk] at hT ⊢
    by_cases hk2 : kind = "series".data
    · rw [if_pos hk2] at hT ⊢
      cases h1 : series_new_filename (basename filepath) with
      | none => rw [h1] at hT; simp at hT
      | some r =>
        obtain ⟨sn, seas, code, nf⟩ := r
        rw [h1] at hT
        simp only [Option.some.injEq] at hT
        subst hT
        have hE1 := existsPath_makedirs (makedirs fs target_dir)
          (dirname (pathJoin (pathJoin (pathJoin target_dir sn) (seasonFolder seas)) nf))
          (pathJoin (pathJoin (pathJoin target_dir sn) (seasonFolder seas)) nf)
          (existsPath_makedirs fs target_dir _ hE)
        simp [hE1, files_makedirs]
    · rw [if_neg hk2] at hT ⊢
      injection hT with ht
      subst ht
      have hE1 := existsPath_makedirs fs target_dir (pathJoin target_dir (basename filepath)) hE
      simp [hE1, files_makedirs]

/-- Claim C1: for every kind, when the computed target path already exists,
rename_and_move skips the move with a warning (the skippedCollision outcome,
which prints "already exists"): the file map is unchanged, so the existing
target keeps its content and the source file is untouched, and the move loop
goes on to process the remaining files. -/
theorem c1_collision_skips (fs : FS) (filepath kind target_dir : List Char)
    (osn : Option (List Char)) (dry : Bool) (rest : List MoveJob) (t : List Char)
    (hT : computedTarget filepath kind target_dir osn = some t)
    (hE : existsPath fs t = true) :
    (rename_and_move fs filepath kind target_dir dry osn).2 =
        MoveOutcome.skippedCollision ∧
      (rename_and_move fs filepath kind target_dir dry osn).1.files = fs.files ∧
      lookupFile (rename_and_move fs filepath kind target_dir dry osn).1 t =
        lookupFile fs t ∧
      lookupFile (rename_and_move fs filepath kind target_dir dry osn).1 filepath =
        lookupFile fs filepath ∧
      (moveAll fs dry (⟨filepath, kind, target_dir, osn⟩ :: rest)).2 =
        MoveOutcome.skippedCollision ::
          (moveAll (rename_and_move fs filepath kind target_dir dry osn).1 dry rest).2 := by
  obtain ⟨h1, h2⟩ := rename_collision_core fs filepath kind target_dir osn dry t hT hE
  refine ⟨h1, h2, lookupFile_congr_files _ _ _ h2, lookupFile_congr_files _ _ _ h2, ?_⟩
  show ((rename_and_move fs filepath kind target_dir dry osn).2 ::
      (moveAll (rename_and_move fs filepath kind target_dir dry osn).1 dry rest).2 : List MoveOutcome) = _
  rw [h1]

/-- Witness for c1_collision_skips on a concrete filesystem. -/
theorem c1_collision_skips_witness :
    (rename_and_move fsColl ("/src/a.2023.mp4".data) ("movie".data) ("/dst".data)
        false none).2 = MoveOutcome.skippedCollision ∧
      (rename_and_move fsColl ("/src/a.2023.mp4".data) ("movie".data) ("/dst".data)
        false none).1.files = fsColl.files :=
  ⟨(c1_collision_skips fsColl ("/src/a.2023.mp4".data) ("movie".data) ("/dst".data)
      none false [] ("/dst/a [2023].mp4".data) (by decide) (by decide)).1,
   (c1_collision_skips fsColl ("/src/a.2023.mp4".data) ("movie".data) ("/dst".data)
      none false [] ("/dst/a [2023].mp4".data) (by decide) (by decide)).2.1⟩

/-- Claim C2 counterexample: with dry_run set, rename_and_move on a movie
whose target directory does not yet exist still creates that directory, so
the filesystem is not left completely unchanged. -/
theorem c2_counterexample :
    existsPath (rename_and_move fsOne ("/src/a.2023.mp4".data) ("movie".data)
        ("/dst".data) true none).1 ("/dst".data) = true ∧
      existsPath fsOne ("/dst".data) = false := by
  constructor
  · decide
  · decide

/-- Claim C2, corrected: with dry_run set, rename_and_move moves no file —
the file map is left exactly as it was and the outcome is never a move (nor
a move failure) — but the filesystem is not completely untouched: the
destination directories are still created before the dry-run check. -/
theorem c2_dry_run_no_move (fs : FS) (filepath kind target_dir : List Char)
    (osn : Option (List Char)) :
    (rename_and_move fs filepath kind target_dir true osn).1.files = fs.files ∧
      (rename_and_move fs filepath kind target_dir true osn).2 ≠ MoveOutcome.moved ∧
      (rename_and_move fs filepath kind target_dir true osn).2 ≠ MoveOutcome.failed := by
  cases hr : rename_and_move fs filepath kind target_dir true osn with
  | mk fs2 o =>
    simp only [rename_and_move, finishMove] at hr
    repeat' split at hr
    all_goals (cases hr; simp_all [makedirs])

/-! ## Counterexamples for claims C4, C8 and C9 -/

/-- Claim C4 counterexample: the claim's output formula (title [year] ext
with the title transformed but not sanitized) disagrees with
movie_new_filename on a name whose title part contains a Windows-forbidden
character: the code also sanitizes, deleting the question mark. -/
theorem c4_counterexample :
    movie_new_filename ("Who?.2001.mkv".data) = some ("Who [2001].mkv".data) ∧
      movieNameUnsanitized ("Who?.2001.mkv".data) = some ("Who? [2001].mkv".data) ∧
      movie_new_filename ("Who?.2001.mkv".data) ≠
        movieNameUnsanitized ("Who?.2001.mkv".data) := by
  refine ⟨by decide, by decide, by decide⟩

/-- Claim C8 counterexample: on [1968] foo.mkv the bracket-stripped stem
begins with the four digits 1968, and no bracket-wrapped year occurs after
that leading run (dropping the run and everything before it leaves "] foo",
which contains no wrapped year), yet the result is 1968 [1968].mkv rather
than the claimed 1968.mkv: the year search scans the whole original name
from the start, so it finds the bracketed leading run itself. -/
theorem c8_counterexample :
    startsRun4 (stripBrackets (splitext ("[1968] foo.mkv".data)).1) = true ∧
      findWrappedYear (((splitext ("[1968] foo.mkv".data)).1).drop 5) = none ∧
      movie_new_filename ("[1968] foo.mkv".data) = some ("1968 [1968].mkv".data) ∧
      movie_new_filename ("[1968] foo.mkv".data) ≠ some ("1968.mkv".data) := by
  refine ⟨by decide, by decide, by decide, by decide⟩

/-- Claim C9 counterexample: for a ? b 2020.mkv the first output is
"a  b [2020].mkv" (sanitization deletes the question mark, leaving a double
space); its stem still contains a four-digit run, and that run (the year) is
the only one; yet a second application collapses the double space and returns
the different name "a b [2020].mkv" — the normalizer is not a fixed point on
this output. -/
theorem c9_counterexample :
    movie_new_filename ("a ? b 2020.mkv".data) = some ("a  b [2020].mkv".data) ∧
      findRun4 (stripBrackets (splitext ("a  b [2020].mkv".data)).1) = some 5 ∧
      movie_new_filename ("a  b [2020].mkv".data) = some ("a b [2020].mkv".data) ∧
      movie_new_filename ("a  b [2020].mkv".data) ≠ some ("a  b [2020].mkv".data) := by
  refine ⟨by decide, by decide, by decide, by decide⟩

/-! ## Claim C3 -/

theorem sanitize_append (a b : List Char) :
    sanitize_filename (a ++ b) = sanitize_filename a ++ sanitize_filename b := by
  simp [sanitize_filename]

theorem normParenYearSuffix_ne_nil (s : List Char) (h : s ≠ []) :
    normParenYearSuffix s ≠ [] := by
  unfold normParenYearSuffix
  split
  · split
    · simp
    · exact h
  · exact h

/-- Claim C3: on a confirmed OMDb lookup whose record carries a title and a
year, get_suggested_name formats the suggestion as Title (Year), and
validate_movie_name sanitizes it, rewrites the trailing parenthesised year
to bracketed form, and compares the result with the current name ignoring
case: equal means valid with no suggestion returned, different means invalid
with the normalized suggestion returned. -/
theorem c3_suggested_name_validation (sim : List Char → List Char → Rat)
    (hasKey : Bool) (net : Net) (title year current_name : List Char)
    (n n1 : Nat) (d : OmdbData) (T Y : List Char)
    (hq : query_omdb sim hasKey net title (some year) n = .ok (some d, n1))
    (hT : d.title = some T) (hY : d.year = some Y) :
    get_suggested_name (some d) = some (T ++ ' ' :: '(' :: (Y ++ [')'])) ∧
      validate_movie_name sim hasKey net title year current_name n =
        .ok
          ((if lowerEq
                (normParenYearSuffix
                  (sanitize_filename (T ++ ' ' :: '(' :: (Y ++ [')'])))) current_name = true
            then ((some true : Option Bool), (none : Option (List Char)))
            else (some false,
              some (normParenYearSuffix
                (sanitize_filename (T ++ ' ' :: '(' :: (Y ++ [')'])))))), n1) := by
  have hsug : get_suggested_name (some d) = some (T ++ ' ' :: '(' :: (Y ++ [')'])) := by
    simp [get_suggested_name, hT, hY]
  refine ⟨hsug, ?_⟩
  have hsan : sanitize_filename (T ++ ' ' :: '(' :: (Y ++ [')'])) =
      sanitize_filename T ++ ' ' :: '(' :: (sanitize_filename Y ++ [')']) := by
    rw [sanitize_append]
    congr 1
    simp [sanitize_filename, isForbidden]
  have hne : sanitize_filename (T ++ ' ' :: '(' :: (Y ++ [')'])) ≠ [] := by
    rw [hsan]
    simp
  have hsn := normParenYearSuffix_ne_nil _ hne
  unfold validate_movie_name
  rw [hq]
  simp only [hsug]
  rw [if_neg hsn]
  by_cases hc : lowerEq
      (normParenYearSuffix (sanitize_filename (T ++ ' ' :: '(' :: (Y ++ [')'])))) current_name = true
  · rw [if_pos hc, if_pos hc]
  · rw [if_neg hc, if_neg hc]

/-- Witness for c3_suggested_name_validation on a concrete confirmed match:
equal names validate, a misspelt current name gets the suggestion. -/
theorem c3_suggested_name_validation_witness :
    validate_movie_name sim0 true netFound ("The Matrix".data) ("1999".data)
        ("The Martix [1999]".data) 0 =
      .ok ((some false, some ("The Matrix [1999]".data)), 1) := by
  have h := (c3_suggested_name_validation sim0 true netFound ("The Matrix".data)
    ("1999".data) ("The Martix [1999]".data) 0 1
    ⟨some ("The Matrix".data), some ("1999".data)⟩ ("The Matrix".data) ("1999".data)
    rfl rfl rfl).2
  rw [h]
  rfl

/-! ## Claim C7 -/

/-- Claim C7 counterexample: with a network on which the request raises (for
example a timeout), the exception escapes query_omdb, reaches cli.main's
top-level handler, and the run exits with code 1 — the metadata lookup error
aborts the whole run instead of degrading to an unknown validation. -/
theorem c7_counterexample :
    validationExitCode sim0 true netExn ["/s/The.Matrix.1999.mp4".data] = 1 ∧
      (1 : Nat) ≠ 0 := by
  refine ⟨by decide, by decide⟩

theorem fuzzy_search_non200 (sim : List Char → List Char → Rat) (net : Net)
    (hnet : ∀ k, ∃ st r, net k = .ok st r ∧ st ≠ 200)
    (a b : List Char) (iy : Option (List Char)) (n : Nat) :
    fuzzy_search sim net a b iy n = .ok (none, n + 1) := by
  obtain ⟨st, r, hk, hst⟩ := hnet n
  unfold fuzzy_search httpGet
  rw [hk]
  simp [hst]

theorem tryFuzzyList_non200 (sim : List Char → List Char → Rat) (net : Net)
    (hnet : ∀ k, ∃ st r, net k = .ok st r ∧ st ≠ 200)
    (titles : List (List Char)) (iy : Option (List Char)) (n : Nat) :
    tryFuzzyList sim net titles iy n = .ok (none, n + titles.length) := by
  induction titles generalizing n with
  | nil => simp [tryFuzzyList]
  | cons t rest ih =>
    have step : tryFuzzyList sim net (t :: rest) iy n = tryFuzzyList sim net rest iy (n + 1) := by
      conv_lhs => rw [tryFuzzyList]
      rw [fuzzy_search_non200 sim net hnet t t iy n]
    rw [step, ih (n + 1)]
    simp only [List.length_cons]
    have harith : n + 1 + rest.length = n + (rest.length + 1) := by omega
    rw [harith]

theorem query_omdb_non200 (sim : List Char → List Char → Rat) (net : Net)
    (hnet : ∀ k, ∃ st r, net k = .ok st r ∧ st ≠ 200)
    (title : List Char) (year : Option (List Char)) (n : Nat) :
    ∃ m, query_omdb sim true net title year n = .ok (none, m) := by
  obtain ⟨st, r, hk, hst⟩ := hnet n
  unfold query_omdb httpGet
  rw [hk]
  simp only [Bool.not_true, Bool.false_eq_true, if_false]
  simp [hst, fuzzy_search_non200 sim net hnet, tryFuzzyList_non200 sim net hnet]
  by_cases hw : alphaWords title = []
  · simp [hw]
  · simp only [hw, if_false]
    by_cases hs : joinSpace (alphaWords title) = title
    · simp [hs, tryFuzzyList_non200 sim net hnet]
    · simp [hs, fuzzy_search_non200 sim net hnet, tryFuzzyList_non200 sim net hnet]

theorem validate_movie_name_non200 (sim : List Char → List Char → Rat) (net : Net)
    (hnet : ∀ k, ∃ st r, net k = .ok st r ∧ st ≠ 200)
    (t y cur : List Char) (n : Nat) :
    ∃ m, validate_movie_name sim true net t y cur n = .ok ((some false, none), m) := by
  obtain ⟨m, hm⟩ := query_omdb_non200 sim net hnet t (some y) n
  refine ⟨m, ?_⟩
  unfold validate_movie_name
  rw [hm]

theorem validateOneVideo_non200 (sim : List Char → List Char → Rat) (net : Net)
    (hnet : ∀ k, ∃ st r, net k = .ok st r ∧ st ≠ 200)
    (v : List Char) (n : Nat) :
    ∃ m, validateOneVideo sim true net v n = .ok
      ((if classify_video v = "series".data then (⟨none, none⟩ : Row)
        else match titleYearMatch
            (splitext ((movie_new_filename (basename v)).getD (basename v))).1 with
          | none => (⟨none, none⟩ : Row)
          | some _ => (⟨some false, none⟩ : Row)), m) := by
  simp only [validateOneVideo]
  by_cases hc : classify_video v = "series".data
  · rw [if_pos hc, if_pos hc]
    exact ⟨n, rfl⟩
  · rw [if_neg hc, if_neg hc]
    cases hty : titleYearMatch
        (splitext ((movie_new_filename (basename v)).getD (basename v))).1 with
    | none => exact ⟨n, rfl⟩
    | some p =>
      obtain ⟨t, y⟩ := p
      obtain ⟨m, hm⟩ := validate_movie_name_non200 sim net hnet t y
        (t ++ ' ' :: '[' :: (y ++ [']'])) n
      exact ⟨m, by simp [hm]⟩

theorem validateVideos_non200 (sim : List Char → List Char → Rat) (net : Net)
    (hnet : ∀ k, ∃ st r, net k = .ok st r ∧ st ≠ 200)
    (videos : List (List Char)) (n : Nat) :
    ∃ m, validateVideos sim true net videos n = .ok (videos.map (fun v =>
      if classify_video v = "series".data then (⟨none, none⟩ : Row)
      else match titleYearMatch
          (splitext ((movie_new_filename (basename v)).getD (basename v))).1 with
        | none => (⟨none, none⟩ : Row)
        | some _ => (⟨some false, none⟩ : Row)), m) := by
  induction videos generalizing n with
  | nil => exact ⟨n, rfl⟩
  | cons v rest ih =>
    obtain ⟨m, hr⟩ := validateOneVideo_non200 sim net hnet v n
    obtain ⟨m2, hrest⟩ := ih m
    refine ⟨m2, ?_⟩
    unfold validateVideos
    rw [hr]
    simp [hrest]

/-- Claim C7, corrected: an OMDb service failure that surfaces as a non-200
HTTP status does not abort the run — the run exits 0 and every file is still
processed — but the affected movie's validation is reported as invalid: the
row of every non-series video whose title and year were extracted is
(valid = some false, suggested = none), printed "No", never the unknown "-"
row; series rows and extraction failures keep the "-" row (valid = none).
A network error that raises an exception (for example a timeout, as the
repository's own tests assert query_omdb propagates) instead escapes to
cli.main's top-level handler and aborts the entire run with exit code 1
(see c7_counterexample). -/
theorem c7_lookup_failure_behaviour (sim : List Char → List Char → Rat) (net : Net)
    (hnet : ∀ k, ∃ st r, net k = .ok st r ∧ st ≠ 200)
    (videos : List (List Char)) :
    validationExitCode sim true net videos = 0 ∧
      ∃ rows m, validateVideos sim true net videos 0 = .ok (rows, m) ∧
        rows.length = videos.length ∧
        (∀ r ∈ rows, r.valid ≠ some true ∧ r.suggested = none) ∧
        rows = videos.map (fun v =>
          if classify_video v = "series".data then (⟨none, none⟩ : Row)
          else match titleYearMatch
              (splitext ((movie_new_filename (basename v)).getD (basename v))).1 with
            | none => (⟨none, none⟩ : Row)
            | some _ => (⟨some false, none⟩ : Row)) := by
  obtain ⟨m, hrows⟩ := validateVideos_non200 sim net hnet videos 0
  refine ⟨?_, _, m, hrows, by simp, ?_, rfl⟩
  · unfold validationExitCode
    rw [hrows]
  · intro r hr
    obtain ⟨v, hv, hveq⟩ := List.mem_map.1 hr
    rw [← hveq]
    by_cases hc : classify_video v = "series".data
    · simp [hc]
    · simp only [if_neg hc]
      cases titleYearMatch
          (splitext ((movie_new_filename (basename v)).getD (basename v))).1 <;> simp

/-- Witness for c7_lookup_failure_behaviour: a run over one movie with every
request answered 404 exits 0, and the row the theorem assigns to that movie
is the invalid row (valid = some false, printed "No"), not the unknown "-"
row. -/
theorem c7_lookup_failure_behaviour_witness :
    validationExitCode sim0 true net404 ["/s/The.Matrix.1999.mp4".data] = 0 ∧
    (["/s/The.Matrix.1999.mp4".data] : List (List Char)).map (fun v =>
      if classify_video v = "series".data then (⟨none, none⟩ : Row)
      else match titleYearMatch
          (splitext ((movie_new_filename (basename v)).getD (basename v))).1 with
        | none => (⟨none, none⟩ : Row)
        | some _ => (⟨some false, none⟩ : Row)) = [⟨some false, none⟩] :=
  ⟨(c7_lookup_failure_behaviour sim0 net404
      (fun _ => ⟨404, .notFound, rfl, by decide⟩)
      ["/s/The.Matrix.1999.mp4".data]).1,
    by decide⟩

/-! ## Whitespace-normalization lemmas

The code trims before collapsing whitespace (replace, strip, strip " .",
collapse) while the spec words it as replace, collapse, trim; these lemmas
show the two orders agree on dot-free strings. -/

theorem rstrip_eq_nil_iff (p : Char → Bool) (s : List Char) :
    rstrip p s = [] ↔ ∀ c ∈ s, p c = true := by
  induction s with
  | nil => simp [rstrip]
  | cons c s ih =>
    cases hr : rstrip p s with
    | nil =>
      by_cases hc : p c = true
      · have h1 : rstrip p (c :: s) = [] := by
          unfold rstrip
          rw [hr]
          simp [hc]
        rw [h1]
        simp only [List.mem_cons, true_iff]
        intro x hx
        rcases hx with h | h
        · subst h; exact hc
        · exact (ih.1 hr) x h
      · have h1 : rstrip p (c :: s) = [c] := by
          unfold rstrip
          rw [hr]
          simp [hc]
        rw [h1]
        constructor
        · intro h; cases h
        · intro h; exact absurd (h c (List.mem_cons_self c s)) hc
    | cons a r =>
      have h1 : rstrip p (c :: s) = c :: a :: r := by
        unfold rstrip
        rw [hr]
      rw [h1]
      constructor
      · intro h; cases h
      · intro h
        have h2 : rstrip p s = [] := ih.2 (fun x hx => h x (List.mem_cons_of_mem c hx))
        rw [hr] at h2; cases h2

theorem mem_rstrip (p : Char → Bool) (s : List Char) (c : Char) :
    c ∈ rstrip p s → c ∈ s := by
  induction s with
  | nil => intro h; simpa [rstrip] using h
  | cons a t ih =>
    intro h
    cases hr : rstrip p t with
    | nil =>
      by_cases ha : p a = true
      · have h1 : rstrip p (a :: t) = [] := by
          unfold rstrip
          rw [hr]
          simp [ha]
        rw [h1] at h; cases h
      · have h1 : rstrip p (a :: t) = [a] := by
          unfold rstrip
          rw [hr]
          simp [ha]
        rw [h1] at h
        simp only [List.mem_singleton] at h
        rw [h]; exact List.mem_cons_self a t
    | cons b r =>
      have h1 : rstrip p (a :: t) = a :: b :: r := by
        unfold rstrip
        rw [hr]
      rw [h1] at h
      rcases List.mem_cons.1 h with h2 | h2
      · rw [h2]; exact List.mem_cons_self a t
      · exact List.mem_cons_of_mem a (ih (hr ▸ h2))

theorem rstrip_cons_shape (p : Char → Bool) (c : Char) (s : List Char) :
    rstrip p (c :: s) = [] ∨ ∃ t, rstrip p (c :: s) = c :: t := by
  unfold rstrip
  cases rstrip p s with
  | nil =>
    by_cases hc : p c = true
    · left; simp [hc]
    · right; exact ⟨[], by simp [hc]⟩
  | cons a r => right; exact ⟨a :: r, rfl⟩

theorem rstrip_rstrip (p q : Char → Bool) (v : List Char)
    (himp : ∀ c ∈ v, p c = true → q c = true) :
    rstrip p (rstrip q v) = rstrip q v := by
  induction v with
  | nil => simp [rstrip]
  | cons c s ih =>
    have ih2 := ih (fun x hx h => himp x (List.mem_cons_of_mem c hx) h)
    cases hr : rstrip q s with
    | nil =>
      by_cases hqc : q c = true
      · have h1 : rstrip q (c :: s) = [] := by
          unfold rstrip
          rw [hr]
          simp [hqc]
        rw [h1]
        simp [rstrip]
      · have hpc : ¬p c = true := fun hp => hqc (himp c (List.mem_cons_self c s) hp)
        have h1 : rstrip q (c :: s) = [c] := by
          unfold rstrip
          rw [hr]
          simp [hqc]
        rw [h1]
        unfold rstrip
        simp [rstrip, hpc]
    | cons a r =>
      have h1 : rstrip q (c :: s) = c :: a :: r := by
        unfold rstrip
        rw [hr]
      rw [h1]
      have h2 : rstrip p (a :: r) = a :: r := hr ▸ ih2
      unfold rstrip
      rw [h2]

theorem collapseWSAux_true (s : List Char) :
    collapseWSAux true s = collapseWSAux false (s.dropWhile Char.isWhitespace) := by
  induction s with
  | nil => rfl
  | cons c s ih =>
    by_cases hc : c.isWhitespace = true
    · rw [List.dropWhile_cons_of_pos hc]
      simp only [collapseWSAux, hc]
      exact ih
    · rw [List.dropWhile_cons_of_neg (by simp [hc])]
      simp only [collapseWSAux, hc]
      simp [hc]

theorem collapseWS_cons_ws (c : Char) (s : List Char) (hc : c.isWhitespace = true) :
    collapseWS (c :: s) = ' ' :: collapseWS (s.dropWhile Char.isWhitespace) := by
  unfold collapseWS
  simp only [collapseWSAux, hc]
  simp [collapseWSAux_true]

theorem collapseWS_cons_not (c : Char) (s : List Char) (hc : ¬c.isWhitespace = true) :
    collapseWS (c :: s) = c :: collapseWS s := by
  unfold collapseWS
  simp [collapseWSAux, hc]

theorem dropWhile_head_not (p : Char → Bool) (s : List Char) (c : Char) (t : List Char)
    (h : s.dropWhile p = c :: t) : p c = false := by
  induction s with
  | nil => cases h
  | cons a s ih =>
    by_cases ha : p a = true
    · rw [List.dropWhile_cons_of_pos ha] at h
      exact ih h
    · rw [List.dropWhile_cons_of_neg (by simp [ha])] at h
      injection h with h1 h2
      subst h1
      simpa using ha

theorem dropWhile_idem (p : Char → Bool) (s : List Char) :
    (s.dropWhile p).dropWhile p = s.dropWhile p := by
  cases h : s.dropWhile p with
  | nil => rfl
  | cons c t =>
    rw [List.dropWhile_cons_of_neg (by simp [dropWhile_head_not p s c t h])]

theorem mem_dropWhile_imp (p : Char → Bool) (s : List Char) (c : Char)
    (h : c ∈ s.dropWhile p) : c ∈ s := by
  induction s with
  | nil => simpa using h
  | cons a t ih =>
    by_cases ha : p a = true
    · rw [List.dropWhile_cons_of_pos ha] at h
      exact List.mem_cons_of_mem a (ih h)
    · rw [List.dropWhile_cons_of_neg (by simp [ha])] at h
      exact h

theorem dropWhile_length_le (p : Char → Bool) (s : List Char) :
    (s.dropWhile p).length ≤ s.length := by
  induction s with
  | nil => simp
  | cons a t ih =>
    by_cases ha : p a = true
    · rw [List.dropWhile_cons_of_pos ha]
      exact le_trans ih (Nat.le_succ _)
    · rw [List.dropWhile_cons_of_neg (by simp [ha])]

theorem collapse_allWS (s : List Char) (hne : s ≠ [])
    (hall : ∀ c ∈ s, c.isWhitespace = true) : collapseWS s = [' '] := by
  cases s with
  | nil => cases hne rfl
  | cons c t =>
    rw [collapseWS_cons_ws c t (hall c (List.mem_cons_self c t))]
    rw [List.dropWhile_eq_nil_iff.2 (fun x hx => by
      simpa using hall x (List.mem_cons_of_mem c hx))]
    rfl

theorem mem_collapseWSAux (x : Char) (s : List Char) :
    ∀ flag, x ∈ collapseWSAux flag s → x = ' ' ∨ x ∈ s := by
  induction s with
  | nil => intro flag h; simpa [collapseWSAux] using h
  | cons c t ih =>
    intro flag h
    by_cases hc : c.isWhitespace = true
    · simp only [collapseWSAux, hc, if_pos] at h
      cases flag with
      | true =>
        simp only [if_pos rfl] at h
        rcases ih true h with h1 | h1
        · exact Or.inl h1
        · exact Or.inr (List.mem_cons_of_mem c h1)
      | false =>
        simp only [Bool.false_eq_true, if_false] at h
        rcases List.mem_cons.1 h with h1 | h1
        · exact Or.inl h1
        · rcases ih true h1 with h2 | h2
          · exact Or.inl h2
          · exact Or.inr (List.mem_cons_of_mem c h2)
    · simp only [collapseWSAux, hc] at h
      simp only [Bool.false_eq_true, if_false] at h
      rcases List.mem_cons.1 h with h1 | h1
      · exact Or.inr (h1 ▸ List.mem_cons_self c t)
      · rcases ih false h1 with h2 | h2
        · exact Or.inl h2
        · exact Or.inr (List.mem_cons_of_mem c h2)

theorem mem_collapseWS (x : Char) (s : List Char) (h : x ∈ collapseWS s) :
    x = ' ' ∨ x ∈ s :=
  mem_collapseWSAux x s false h

theorem mem_collapseWSAux_of_mem (x : Char) (hx : ¬x.isWhitespace = true)
    (s : List Char) : ∀ flag, x ∈ s → x ∈ collapseWSAux flag s := by
  induction s with
  | nil => intro flag h; cases h
  | cons c t ih =>
    intro flag h
    by_cases hc : c.isWhitespace = true
    · have hxt : x ∈ t := by
        rcases List.mem_cons.1 h with h1 | h1
        · exact absurd hc (by rw [← h1]; exact hx)
        · exact h1
      have hrec := ih true hxt
      cases flag with
      | true => simpa [collapseWSAux, hc] using hrec
      | false =>
        simp only [collapseWSAux, hc, if_pos, Bool.false_eq_true, if_false]
        exact List.mem_cons_of_mem ' ' hrec
    · simp only [collapseWSAux, hc, Bool.false_eq_true, if_false]
      rcases List.mem_cons.1 h with h1 | h1
      · exact h1 ▸ List.mem_cons_self c _
      · exact List.mem_cons_of_mem c (ih false h1)

theorem mem_collapseWS_of_mem (x : Char) (s : List Char)
    (hx : ¬x.isWhitespace = true) (h : x ∈ s) : x ∈ collapseWS s :=
  mem_collapseWSAux_of_mem x hx s false h

theorem dropWhile_rstrip_comm (p : Char → Bool) (s : List Char) :
    (rstrip p s).dropWhile p = rstrip p (s.dropWhile p) := by
  induction s with
  | nil => simp [rstrip]
  | cons a t ih =>
    cases hr : rstrip p t with
    | nil =>
      have hallp : ∀ c ∈ t, p c = true := (rstrip_eq_nil_iff p t).1 hr
      by_cases ha : p a = true
      · have h1 : rstrip p (a :: t) = [] := by
          unfold rstrip
          rw [hr]
          simp [ha]
        have hdt : t.dropWhile p = [] :=
          List.dropWhile_eq_nil_iff.2 (fun x hx => by simpa using hallp x hx)
        rw [h1, List.dropWhile_cons_of_pos ha, hdt]
        simp [rstrip]
      · have h1 : rstrip p (a :: t) = [a] := by
          unfold rstrip
          rw [hr]
          simp [ha]
        rw [h1, List.dropWhile_cons_of_neg (by simp [ha]),
          List.dropWhile_cons_of_neg (by simp [ha])]
        unfold rstrip
        rw [hr]
        simp [ha]
    | cons b r =>
      have h1 : rstrip p (a :: t) = a :: b :: r := by
        unfold rstrip
        rw [hr]
      by_cases ha : p a = true
      · rw [h1, List.dropWhile_cons_of_pos ha, List.dropWhile_cons_of_pos ha]
        rw [← hr, ih]
      · rw [h1, List.dropWhile_cons_of_neg (by simp [ha]),
          List.dropWhile_cons_of_neg (by simp [ha])]
        unfold rstrip
        rw [hr]

theorem collapse_dropWhile (u : List Char) (hdot : ∀ c ∈ u, c ≠ '.') :
    collapseWS (u.dropWhile Char.isWhitespace) =
      (collapseWS u).dropWhile isSpaceDot := by
  suffices H : ∀ n (v : List Char), v.length ≤ n → (∀ c ∈ v, c ≠ '.') →
      collapseWS (v.dropWhile Char.isWhitespace) = (collapseWS v).dropWhile isSpaceDot by
    exact H u.length u le_rfl hdot
  intro n
  induction n with
  | zero =>
    intro v hlen _
    have hv : v = [] := List.eq_nil_of_length_eq_zero (Nat.le_zero.1 hlen)
    subst hv
    rfl
  | succ n ih =>
    intro v hlen hdotv
    cases v with
    | nil => rfl
    | cons c s =>
      by_cases hc : c.isWhitespace = true
      · rw [List.dropWhile_cons_of_pos hc, collapseWS_cons_ws c s hc,
          List.dropWhile_cons_of_pos (show isSpaceDot ' ' = true by decide)]
        have hlen2 : (s.dropWhile Char.isWhitespace).length ≤ n :=
          le_trans (dropWhile_length_le _ s) (Nat.le_of_succ_le_succ hlen)
        have hdot2 : ∀ x ∈ s.dropWhile Char.isWhitespace, x ≠ '.' := fun x hx =>
          hdotv x (List.mem_cons_of_mem c (mem_dropWhile_imp _ s x hx))
        have ih2 := ih (s.dropWhile Char.isWhitespace) hlen2 hdot2
        rw [dropWhile_idem] at ih2
        exact ih2
      · have hp2 : ¬isSpaceDot c = true := by
          intro hsp
          simp only [isSpaceDot, Bool.or_eq_true, decide_eq_true_eq] at hsp
          rcases hsp with h1 | h1
          · exact hc (by rw [h1]; decide)
          · exact hdotv c (List.mem_cons_self c s) h1
        rw [List.dropWhile_cons_of_neg (by simp [hc]), collapseWS_cons_not c s hc,
          List.dropWhile_cons_of_neg (by simp [show ¬isSpaceDot c = true from hp2])]

theorem mem_dropWhile_of_not (p : Char → Bool) (x : Char) (s : List Char)
    (hx : ¬p x = true) (h : x ∈ s) : x ∈ s.dropWhile p := by
  induction s with
  | nil => cases h
  | cons a t ih =>
    by_cases ha : p a = true
    · rw [List.dropWhile_cons_of_pos ha]
      rcases List.mem_cons.1 h with h1 | h1
      · exact absurd ha (by rw [← h1]; exact hx)
      · exact ih h1
    · rw [List.dropWhile_cons_of_neg (by simp [ha])]
      exact h

theorem rstrip_ne_nil_of_mem (p : Char → Bool) (s : List Char) (x : Char)
    (h : x ∈ s) (hx : ¬p x = true) : rstrip p s ≠ [] := by
  intro hnil
  exact hx ((rstrip_eq_nil_iff p s).1 hnil x h)

theorem rstrip_cons_of_ne (p : Char → Bool) (c : Char) (s : List Char)
    (h : rstrip p s ≠ []) : rstrip p (c :: s) = c :: rstrip p s := by
  cases hr : rstrip p s with
  | nil => exact absurd hr h
  | cons b r =>
    unfold rstrip
    rw [hr]

theorem collapse_rstrip (u : List Char) (hdot : ∀ c ∈ u, c ≠ '.') :
    collapseWS (rstrip Char.isWhitespace u) =
      rstrip isSpaceDot (collapseWS u) := by
  suffices H : ∀ n (v : List Char), v.length ≤ n → (∀ c ∈ v, c ≠ '.') →
      collapseWS (rstrip Char.isWhitespace v) = rstrip isSpaceDot (collapseWS v) by
    exact H u.length u le_rfl hdot
  intro n
  induction n with
  | zero =>
    intro v hlen _
    have hv : v = [] := List.eq_nil_of_length_eq_zero (Nat.le_zero.1 hlen)
    subst hv
    rfl
  | succ n ih =>
    intro v hlen hdotv
    cases v with
    | nil => rfl
    | cons c s =>
      have hdots : ∀ x ∈ s, x ≠ '.' := fun x hx => hdotv x (List.mem_cons_of_mem c hx)
      have hlens : s.length ≤ n := Nat.le_of_succ_le_succ hlen
      have hp2 : ∀ x, x ∈ c :: s → ¬x.isWhitespace = true → ¬isSpaceDot x = true := by
        intro x hmem hws hsp
        simp only [isSpaceDot, Bool.or_eq_true, decide_eq_true_eq] at hsp
        rcases hsp with h2 | h2
        · exact hws (by rw [h2]; decide)
        · exact hdotv x hmem h2
      cases hr : rstrip Char.isWhitespace s with
      | nil =>
        have hallws : ∀ x ∈ s, x.isWhitespace = true :=
          (rstrip_eq_nil_iff Char.isWhitespace s).1 hr
        by_cases hc : c.isWhitespace = true
        · have h1 : rstrip Char.isWhitespace (c :: s) = [] := by
            unfold rstrip
            rw [hr]
            simp [hc]
          rw [h1, collapseWS_cons_ws c s hc,
            List.dropWhile_eq_nil_iff.2 (fun x hx => by simpa using hallws x hx)]
          simp [collapseWS, collapseWSAux, rstrip, isSpaceDot]
        · have h1 : rstrip Char.isWhitespace (c :: s) = [c] := by
            unfold rstrip
            rw [hr]
            simp [hc]
          have hp2c : ¬isSpaceDot c = true := hp2 c (List.mem_cons_self c s) hc
          rw [h1, collapseWS_cons_not c s hc]
          cases hs : s with
          | nil =>
            simp [collapseWS, collapseWSAux, rstrip, hp2c, hc]
          | cons b t =>
            have hcs : collapseWS (b :: t) = [' '] :=
              collapse_allWS (b :: t) (by simp)
                (fun x hx => hallws x (by rw [hs]; exact hx))
            rw [hcs]
            have hLHS : collapseWS [c] = [c] := by
              simp [collapseWS, collapseWSAux, hc]
            rw [hLHS]
            have hsp : rstrip isSpaceDot [' '] = [] := by
              simp [rstrip, isSpaceDot]
            unfold rstrip
            rw [hsp]
            simp [hp2c]
      | cons b r =>
        have hnotall : ¬∀ x ∈ s, x.isWhitespace = true := by
          intro hall
          have h0 := (rstrip_eq_nil_iff Char.isWhitespace s).2 hall
          rw [hr] at h0; cases h0
        obtain ⟨w, hw, hwns⟩ : ∃ w ∈ s, ¬w.isWhitespace = true := by
          by_contra hno
          push_neg at hno
          exact hnotall (fun x hx => by simpa using hno x hx)
        have hwp2 : ¬isSpaceDot w = true := hp2 w (List.mem_cons_of_mem c hw) hwns
        have h1 : rstrip Char.isWhitespace (c :: s) = c :: b :: r := by
          unfold rstrip
          rw [hr]
        by_cases hc : c.isWhitespace = true
        · have hwd : w ∈ s.dropWhile Char.isWhitespace :=
            mem_dropWhile_of_not Char.isWhitespace w s hwns hw
          have hwc : w ∈ collapseWS (s.dropWhile Char.isWhitespace) :=
            mem_collapseWS_of_mem w _ hwns hwd
          have hne : rstrip isSpaceDot (collapseWS (s.dropWhile Char.isWhitespace)) ≠ [] :=
            rstrip_ne_nil_of_mem isSpaceDot _ w hwc hwp2
          have hlen2 : (s.dropWhile Char.isWhitespace).length ≤ n :=
            le_trans (dropWhile_length_le _ s) hlens
          have hdot2 : ∀ x ∈ s.dropWhile Char.isWhitespace, x ≠ '.' := fun x hx =>
            hdots x (mem_dropWhile_imp _ s x hx)
          rw [h1, collapseWS_cons_ws c (b :: r) hc,
            show (b :: r : List Char) = rstrip Char.isWhitespace s from hr.symm,
            dropWhile_rstrip_comm, ih (s.dropWhile Char.isWhitespace) hlen2 hdot2,
            collapseWS_cons_ws c s hc,
            rstrip_cons_of_ne isSpaceDot ' ' _ hne]
        · have hwc : w ∈ collapseWS s := mem_collapseWS_of_mem w s hwns hw
          have hne : rstrip isSpaceDot (collapseWS s) ≠ [] :=
            rstrip_ne_nil_of_mem isSpaceDot _ w hwc hwp2
          rw [h1, collapseWS_cons_not c (b :: r) hc,
            show (b :: r : List Char) = rstrip Char.isWhitespace s from hr.symm,
            ih s hlens hdots, collapseWS_cons_not c s hc,
            rstrip_cons_of_ne isSpaceDot c _ hne]

theorem stripSpaceDot_stripWS (u : List Char) (hdot : ∀ c ∈ u, c ≠ '.') :
    stripSpaceDot (stripWS u) = stripWS u := by
  unfold stripSpaceDot stripWS
  have hmem : ∀ x ∈ rstrip Char.isWhitespace (u.dropWhile Char.isWhitespace), x ∈ u :=
    fun x hx => mem_dropWhile_imp _ u x (mem_rstrip _ _ x hx)
  have hstep2 : rstrip isSpaceDot (rstrip Char.isWhitespace (u.dropWhile Char.isWhitespace)) =
      rstrip Char.isWhitespace (u.dropWhile Char.isWhitespace) := by
    refine rstrip_rstrip isSpaceDot Char.isWhitespace _ ?_
    intro x hx hsp
    simp only [isSpaceDot, Bool.or_eq_true, decide_eq_true_eq] at hsp
    rcases hsp with h | h
    · rw [h]; decide
    · exact absurd h (hdot x (mem_dropWhile_imp _ u x hx))
  have hstep1 : (rstrip Char.isWhitespace (u.dropWhile Char.isWhitespace)).dropWhile isSpaceDot =
      rstrip Char.isWhitespace (u.dropWhile Char.isWhitespace) := by
    cases hw : u.dropWhile Char.isWhitespace with
    | nil => simp [rstrip]
    | cons c t =>
      rcases rstrip_cons_shape Char.isWhitespace c t with h | ⟨t2, h⟩
      · rw [h]; rfl
      · rw [h]
        have hcw : ¬c.isWhitespace = true := by
          simpa using dropWhile_head_not Char.isWhitespace u c t hw
        have hcd : c ≠ '.' := hdot c (mem_dropWhile_imp _ u c (by rw [hw]; exact List.mem_cons_self c t))
        refine List.dropWhile_cons_of_neg ?_
        simp only [isSpaceDot, Bool.or_eq_true, decide_eq_true_eq]
        rintro (h1 | h1)
        · exact hcw (by rw [h1]; decide)
        · exact hcd h1
  rw [hstep1, hstep2]

/-- The spec's title pipeline (replace, collapse, trim) agrees with the
code's (replace, strip, strip " .", collapse) on dot-free strings — and the
replacement step leaves no dots. -/
theorem title_order_eq (u : List Char) (hdot : ∀ c ∈ u, c ≠ '.') :
    collapseWS (stripSpaceDot (stripWS u)) = stripSpaceDot (collapseWS u) := by
  rw [stripSpaceDot_stripWS u hdot]
  show collapseWS (rstrip Char.isWhitespace (u.dropWhile Char.isWhitespace)) = _
  rw [collapse_rstrip (u.dropWhile Char.isWhitespace)
    (fun x hx => hdot x (mem_dropWhile_imp _ u x hx))]
  rw [collapse_dropWhile u hdot]
  rfl

theorem dotToSpace_no_dot (s : List Char) : ∀ c ∈ dotToSpace s, c ≠ '.' := by
  intro c hc
  unfold dotToSpace at hc
  obtain ⟨a, _, ha2⟩ := List.mem_map.1 hc
  by_cases had : a = '.'
  · rw [if_pos had] at ha2
    rw [← ha2]
    decide
  · rw [if_neg had] at ha2
    rw [← ha2]
    exact had

/-! ## Claim C4, amended -/

/-- Claim C4, corrected: for every filename whose bracket-stripped stem does
not begin with four digits, movie_new_filename maps the position of the first
four-digit run (none when there is no run, in which case the result is null)
to the sanitized form of title [year] ext, where the year is that first run
and the title is the preceding text with periods replaced by spaces,
consecutive whitespace collapsed, and leading and trailing spaces and periods
trimmed, exactly as the spec words it. -/
theorem c4_general_branch_formula (filename : List Char)
    (h : startsRun4 (stripBrackets (splitext filename).1) = false) :
    movie_new_filename filename =
      (findRun4 (stripBrackets (splitext filename).1)).map (fun i =>
        sanitize_filename (movieTitleSpec (stripBrackets (splitext filename).1) i ++
          ' ' :: '[' :: ((((stripBrackets (splitext filename).1).drop i).take 4) ++
            ']' :: (splitext filename).2))) := by
  simp only [movie_new_filename]
  rw [h]
  simp only [Bool.false_eq_true, if_false]
  cases hfr : findRun4 (stripBrackets (splitext filename).1) with
  | none => rfl
  | some i =>
    have ht := title_order_eq (dotToSpace ((stripBrackets (splitext filename).1).take i))
      (dotToSpace_no_dot _)
    simp only [Option.map_some']
    simp [movieTitleSpec, ht]

/-- Witness for c4_general_branch_formula at The.Matrix.1999.mp4. -/
theorem c4_general_branch_formula_witness :
    movie_new_filename ("The.Matrix.1999.mp4".data) =
      (findRun4 (stripBrackets (splitext ("The.Matrix.1999.mp4".data)).1)).map (fun i =>
        sanitize_filename
          (movieTitleSpec (stripBrackets (splitext ("The.Matrix.1999.mp4".data)).1) i ++
            ' ' :: '[' ::
              ((((stripBrackets (splitext ("The.Matrix.1999.mp4".data)).1).drop i).take 4) ++
                ']' :: (splitext ("The.Matrix.1999.mp4".data)).2))) :=
  c4_general_branch_formula ("The.Matrix.1999.mp4".data) (by decide)

/-! ## Claim C8, amended -/

theorem exists_four_of_length (y : List Char) (h : y.length = 4) :
    ∃ a b c d, y = [a, b, c, d] := by
  rcases y with _ | ⟨a, _ | ⟨b, _ | ⟨c, _ | ⟨d, rest⟩⟩⟩⟩ <;> simp_all

theorem wrappedYearAt_head (o : Char) (y : List Char) (cl : Char) (v : List Char)
    (ho : o = '[' ∨ o = '(') (hcl : cl = ']' ∨ cl = ')')
    (hlen : y.length = 4) (hdig : y.all Char.isDigit = true) :
    wrappedYearAt (o :: (y ++ cl :: v)) = some y := by
  obtain ⟨a, b, c, d, rfl⟩ := exists_four_of_length y hlen
  simp only [List.all_cons, List.all_nil, Bool.and_eq_true] at hdig
  simp only [List.cons_append, List.nil_append, wrappedYearAt]
  rw [if_pos]
  rcases ho with h | h <;> rcases hcl with h2 | h2 <;>
    simp [h, h2, hdig.1, hdig.2.1, hdig.2.2.1, hdig.2.2.2.1]

theorem wrappedYearAt_some_wrapped (t : List Char) (y : List Char)
    (h : wrappedYearAt t = some y) : WrappedIn t := by
  match t, h with
  | o :: a :: b :: c :: d :: e :: rest, h =>
    simp only [wrappedYearAt] at h
    by_cases hcond : ((o = '[' || o = '(') && a.isDigit && b.isDigit && c.isDigit
        && d.isDigit && (e = ']' || e = ')')) = true
    · rw [if_pos hcond] at h
      injection h with hy
      simp only [Bool.and_eq_true, Bool.or_eq_true, decide_eq_true_eq] at hcond
      refine ⟨[], o, [a, b, c, d], e, rest, by simp, ?_, ?_, by simp, ?_⟩
      · exact hcond.1.1.1.1.1
      · exact hcond.2
      · simp [hcond.1.1.1.1.2, hcond.1.1.1.2, hcond.1.1.2, hcond.1.2]
    · rw [if_neg hcond] at h
      cases h

theorem findWrappedYear_none_iff (s : List Char) :
    findWrappedYear s = none ↔ ¬WrappedIn s := by
  induction s with
  | nil =>
    simp only [findWrappedYear, true_iff]
    rintro ⟨u, o, y, cl, v, heq, -, -, -, -⟩
    exact absurd heq (by simp)
  | cons c s ih =>
    cases hat : wrappedYearAt (c :: s) with
    | some y =>
      have h1 : findWrappedYear (c :: s) = some y := by
        conv_lhs => rw [findWrappedYear]
        rw [hat]
      rw [h1]
      constructor
      · intro h; cases h
      · intro hnw
        exact absurd (wrappedYearAt_some_wrapped (c :: s) y hat) hnw
    | none =>
      have h1 : findWrappedYear (c :: s) = findWrappedYear s := by
        conv_lhs => rw [findWrappedYear]
        rw [hat]
      rw [h1, ih]
      constructor
      · intro hns hw
        obtain ⟨u, o, y, cl, v, heq, ho, hcl, hlen, hdig⟩ := hw
        cases u with
        | nil =>
          simp only [List.nil_append] at heq
          rw [heq] at hat
          rw [wrappedYearAt_head o y cl v ho hcl hlen hdig] at hat
          cases hat
        | cons a u2 =>
          simp only [List.cons_append] at heq
          injection heq with h2 h3
          exact hns ⟨u2, o, y, cl, v, h3, ho, hcl, hlen, hdig⟩
      · intro hns hw
        obtain ⟨u, o, y, cl, v, heq, ho, hcl, hlen, hdig⟩ := hw
        exact hns ⟨c :: u, o, y, cl, v, by rw [heq]; simp, ho, hcl, hlen, hdig⟩

theorem digit_not_ws (c : Char) (h : c.isDigit = true) : ¬c.isWhitespace = true := by
  intro hw
  simp only [Char.isWhitespace, Bool.or_eq_true, decide_eq_true_eq] at hw
  rcases hw with ((h1 | h1) | h1) | h1 <;> (subst h1; exact absurd h (by decide))

theorem rstrip_eq_self_of_none (p : Char → Bool) (s : List Char)
    (h : ∀ c ∈ s, ¬p c = true) : rstrip p s = s := by
  induction s with
  | nil => rfl
  | cons c t ih =>
    have ht := ih (fun x hx => h x (List.mem_cons_of_mem c hx))
    cases hts : t with
    | nil =>
      simp [rstrip, h c (List.mem_cons_self c t)]
    | cons b r =>
      rw [hts] at ht
      rw [rstrip_cons_of_ne p c (b :: r) (by rw [ht]; simp)]
      rw [ht]

theorem stripWS_eq_self_of_no_ws (s : List Char)
    (h : ∀ c ∈ s, ¬c.isWhitespace = true) : stripWS s = s := by
  unfold stripWS
  have h1 : s.dropWhile Char.isWhitespace = s := by
    cases hs : s with
    | nil => rfl
    | cons c t =>
      refine List.dropWhile_cons_of_neg ?_
      simpa using h c (by rw [hs]; exact List.mem_cons_self c t)
  rw [h1]
  exact rstrip_eq_self_of_none Char.isWhitespace s h

theorem startsRun4_shape (s : List Char) (h : startsRun4 s = true) :
    ∃ a b c d rest, s = a :: b :: c :: d :: rest ∧ a.isDigit = true ∧
      b.isDigit = true ∧ c.isDigit = true ∧ d.isDigit = true := by
  match s, h with
  | a :: b :: c :: d :: rest, h =>
    simp only [startsRun4, Bool.and_eq_true] at h
    exact ⟨a, b, c, d, rest, rfl, h.1.1.1, h.1.1.2, h.1.2, h.2⟩

/-- Claim C8, corrected: when the bracket-stripped stem begins with four
digits, those four digits are the title, and the result carries a bracketed
year exactly when a wrapped four-digit run occurs anywhere in the original
unstripped stem — the year found being the leftmost such run (which may be
the bracketed leading run itself, and the opening and closing characters need
not pair up); with no wrapped run anywhere the result is just the title and
extension.  The second conjunct identifies the none case of the search with
the absence of any wrapped run. -/
theorem c8_leading_digits_branch (filename stem ext : List Char)
    (hsplit : splitext filename = (stem, ext))
    (hstart : startsRun4 (stripBrackets stem) = true) :
    movie_new_filename filename =
      some (sanitize_filename
        ((stripBrackets stem).take 4 ++
          (match findWrappedYear stem with
           | some y => ' ' :: '[' :: (y ++ ']' :: ext)
           | none => ext))) ∧
      (findWrappedYear stem = none ↔ ¬WrappedIn stem) := by
  refine ⟨?_, findWrappedYear_none_iff stem⟩
  have hid : stripWS ((stripBrackets stem).take 4) = (stripBrackets stem).take 4 := by
    obtain ⟨a, b, c, d, rest, hshape, ha, hb, hc, hd⟩ :=
      startsRun4_shape (stripBrackets stem) hstart
    rw [hshape]
    have htake : (a :: b :: c :: d :: rest).take 4 = [a, b, c, d] := rfl
    rw [htake]
    refine stripWS_eq_self_of_no_ws _ ?_
    intro x hx
    simp only [List.mem_cons, List.not_mem_nil, or_false] at hx
    rcases hx with h1 | h1 | h1 | h1
    · rw [h1]; exact digit_not_ws a ha
    · rw [h1]; exact digit_not_ws b hb
    · rw [h1]; exact digit_not_ws c hc
    · rw [h1]; exact digit_not_ws d hd
  simp only [movie_new_filename, hsplit]
  cases hfw : findWrappedYear stem with
  | some y => simp [hstart, hfw, hid]
  | none => simp [hstart, hfw, hid]

/-- Witness for c8_leading_digits_branch at [1968] foo.mkv. -/
theorem c8_leading_digits_branch_witness :
    movie_new_filename ("[1968] foo.mkv".data) =
      some (sanitize_filename
        ((stripBrackets ("[1968] foo".data)).take 4 ++
          (match findWrappedYear ("[1968] foo".data) with
           | some y => ' ' :: '[' :: (y ++ ']' :: (".mkv".data))
           | none => (".mkv".data)))) :=
  (c8_leading_digits_branch ("[1968] foo.mkv".data) ("[1968] foo".data) (".mkv".data)
    (by decide) (by decide)).1

/-! ## Digit-run position lemmas (towards claim C9) -/

theorem digit_ne_special (c : Char) (h : c.isDigit = true) :
    c ≠ '.' ∧ c ≠ '/' ∧ c ≠ '[' ∧ c ≠ ']' ∧ c ≠ '(' ∧ c ≠ ')' := by
  refine ⟨?_, ?_, ?_, ?_, ?_, ?_⟩ <;> (intro he; rw [he] at h; exact absurd h (by decide))

theorem startsRun4_cons_false (a : Char) (x : List Char) (ha : a.isDigit = false) :
    startsRun4 (a :: x) = false := by
  rcases x with _ | ⟨b, _ | ⟨c, _ | ⟨d, r⟩⟩⟩ <;> simp [startsRun4, ha]

theorem startsRun4_append_long (u v : List Char) (hu : 4 ≤ u.length) :
    startsRun4 (u ++ v) = startsRun4 u := by
  rcases u with _ | ⟨a, _ | ⟨b, _ | ⟨c, _ | ⟨d, r⟩⟩⟩⟩ <;> simp_all [startsRun4]

theorem startsRun4_space_within (u w : List Char) (hu : u.length ≤ 3) :
    startsRun4 (u ++ ' ' :: w) = false := by
  have hsp : (' ').isDigit = false := by decide
  rcases u with _ | ⟨a, _ | ⟨b, _ | ⟨c, _ | ⟨d, r⟩⟩⟩⟩
  · exact startsRun4_cons_false ' ' w hsp
  · rcases w with _ | ⟨e, _ | ⟨f2, r2⟩⟩ <;> simp [startsRun4, hsp]
  · rcases w with _ | ⟨e, r2⟩ <;> simp [startsRun4, hsp]
  · simp [startsRun4, hsp]
  · simp at hu

theorem startsRun4_of_take (w : List Char) (k : Nat)
    (h : startsRun4 (w.take k) = true) : startsRun4 w = true := by
  obtain ⟨a, b, c, d, rest, hsh, ha, hb, hc, hd⟩ := startsRun4_shape _ h
  have hw : w = a :: b :: c :: d :: (rest ++ w.drop k) := by
    conv_lhs => rw [← List.take_append_drop k w]
    rw [hsh]
    rfl
  rw [hw]
  simp [startsRun4, ha, hb, hc, hd]

theorem findRun4_spec (s : List Char) (i : Nat) (h : findRun4 s = some i) :
    startsRun4 (s.drop i) = true ∧ ∀ j, j < i → startsRun4 (s.drop j) = false := by
  induction s generalizing i with
  | nil => cases h
  | cons c t ih =>
    by_cases hs : startsRun4 (c :: t) = true
    · have h0 : findRun4 (c :: t) = some 0 := by
        unfold findRun4
        rw [if_pos hs]
      rw [h0] at h
      injection h with hi
      subst hi
      exact ⟨hs, fun j hj => absurd hj (Nat.not_lt_zero j)⟩
    · have h0 : findRun4 (c :: t) = (findRun4 t).map (· + 1) := by
        conv_lhs => rw [findRun4]
        rw [if_neg hs]
      rw [h0] at h
      cases hft : findRun4 t with
      | none => rw [hft] at h; cases h
      | some i2 =>
        rw [hft] at h
        injection h with hi
        subst hi
        obtain ⟨h1, h2⟩ := ih i2 hft
        refine ⟨h1, ?_⟩
        intro j hj
        cases j with
        | zero => simpa using hs
        | succ j2 => exact h2 j2 (Nat.lt_of_succ_lt_succ hj)

theorem findRun4_eq_some (s : List Char) (i : Nat)
    (h1 : startsRun4 (s.drop i) = true)
    (h2 : ∀ j, j < i → startsRun4 (s.drop j) = false) :
    findRun4 s = some i := by
  induction s generalizing i with
  | nil =>
    rw [List.drop_nil] at h1
    cases h1
  | cons c t ih =>
    cases i with
    | zero =>
      unfold findRun4
      rw [if_pos (by simpa using h1)]
    | succ i2 =>
      have hs : startsRun4 (c :: t) = false := h2 0 (Nat.succ_pos i2)
      unfold findRun4
      rw [if_neg (by simp [hs])]
      rw [ih i2 (by simpa using h1) (fun j hj => h2 (j + 1) (Nat.succ_lt_succ hj))]
      rfl

theorem norun_dropWhile (p : Char → Bool) (s : List Char)
    (h : ∀ j, startsRun4 (s.drop j) = false) :
    ∀ j, startsRun4 ((s.dropWhile p).drop j) = false := by
  induction s with
  | nil =>
    intro j
    rw [show (List.dropWhile p ([] : List Char)) = [] from rfl, List.drop_nil]
    rfl
  | cons c t ih =>
    intro j
    by_cases hc : p c = true
    · rw [List.dropWhile_cons_of_pos hc]
      exact ih (fun k => by simpa using h (k + 1)) j
    · rw [List.dropWhile_cons_of_neg (by simp [hc])]
      exact h j

theorem norun_take (s : List Char) (m : Nat)
    (h : ∀ j, startsRun4 (s.drop j) = false) :
    ∀ j, startsRun4 ((s.take m).drop j) = false := by
  intro j
  cases hv : startsRun4 ((s.take m).drop j) with
  | false => rfl
  | true =>
    exfalso
    rw [List.drop_take] at hv
    have := startsRun4_of_take (s.drop j) (m - j) hv
    rw [h j] at this
    cases this

theorem rstrip_eq_take (p : Char → Bool) (s : List Char) : ∃ m, rstrip p s = s.take m := by
  induction s with
  | nil => exact ⟨0, rfl⟩
  | cons c t ih =>
    obtain ⟨m, hm⟩ := ih
    cases hr : rstrip p t with
    | nil =>
      by_cases hc : p c = true
      · refine ⟨0, ?_⟩
        unfold rstrip
        rw [hr]
        simp [hc]
      · refine ⟨1, ?_⟩
        unfold rstrip
        rw [hr]
        simp [hc]
    | cons b r =>
      refine ⟨m + 1, ?_⟩
      rw [rstrip_cons_of_ne p c t (by rw [hr]; simp), hm]
      rfl

theorem norun_rstrip (p : Char → Bool) (s : List Char)
    (h : ∀ j, startsRun4 (s.drop j) = false) :
    ∀ j, startsRun4 ((rstrip p s).drop j) = false := by
  obtain ⟨m, hm⟩ := rstrip_eq_take p s
  rw [hm]
  exact norun_take s m h

theorem sigma_digit (c : Char) :
    (if c = '.' then ' ' else c).isDigit = c.isDigit := by
  by_cases h : c = '.'
  · rw [if_pos h, h]; decide
  · rw [if_neg h]

theorem startsRun4_dotToSpace (x : List Char) :
    startsRun4 (dotToSpace x) = startsRun4 x := by
  rcases x with _ | ⟨a, _ | ⟨b, _ | ⟨c, _ | ⟨d, r⟩⟩⟩⟩ <;>
    simp [dotToSpace, startsRun4, sigma_digit]

theorem norun_dotToSpace (s : List Char)
    (h : ∀ j, startsRun4 (s.drop j) = false) :
    ∀ j, startsRun4 ((dotToSpace s).drop j) = false := by
  intro j
  have hmap : (dotToSpace s).drop j = dotToSpace (s.drop j) := by
    unfold dotToSpace
    rw [List.map_drop]
  rw [hmap, startsRun4_dotToSpace]
  exact h j

theorem collapse_take_digits (t : List Char) :
    ∀ k, ((collapseWS t).take k).all Char.isDigit = true →
      (collapseWS t).take k = t.take k := by
  induction t with
  | nil => intro k _; rfl
  | cons c s ih =>
    intro k h
    by_cases hc : c.isWhitespace = true
    · cases k with
      | zero => rfl
      | succ k2 =>
        exfalso
        rw [collapseWS_cons_ws c s hc] at h
        rw [List.take_succ_cons, List.all_cons] at h
        have hsp : (' ').isDigit = false := by decide
        rw [hsp] at h
        simp at h
    · cases k with
      | zero => rfl
      | succ k2 =>
        rw [collapseWS_cons_not c s hc] at h ⊢
        rw [List.take_succ_cons, List.all_cons, Bool.and_eq_true] at h
        rw [List.take_succ_cons, List.take_succ_cons, ih k2 h.2]

theorem norun_collapse (v : List Char)
    (hv : ∀ j, startsRun4 (v.drop j) = false) :
    ∀ j, startsRun4 ((collapseWS v).drop j) = false := by
  suffices H : ∀ n (s : List Char), s.length ≤ n →
      (∀ j, startsRun4 (s.drop j) = false) →
      ∀ j, startsRun4 ((collapseWS s).drop j) = false by
    exact H v.length v le_rfl hv
  intro n
  induction n with
  | zero =>
    intro s hs _ j
    have hnil : s = [] := List.eq_nil_of_length_eq_zero (Nat.le_zero.1 hs)
    subst hnil
    rw [show collapseWS [] = [] from rfl, List.drop_nil]
    rfl
  | succ n ih =>
    intro s hs h j
    cases s with
    | nil =>
      rw [show collapseWS [] = [] from rfl, List.drop_nil]
      rfl
    | cons c t =>
      have ht : ∀ k, startsRun4 (t.drop k) = false := by
        intro k
        have := h (k + 1)
        rwa [List.drop_succ_cons] at this
      have htlen : t.length ≤ n := Nat.le_of_succ_le_succ (by simpa using hs)
      by_cases hc : c.isWhitespace = true
      · rw [collapseWS_cons_ws c t hc]
        cases j with
        | zero =>
          rw [List.drop_zero]
          exact startsRun4_cons_false ' ' _ (by decide)
        | succ j2 =>
          rw [List.drop_succ_cons]
          have hlen : (t.dropWhile Char.isWhitespace).length ≤ n :=
            le_trans (dropWhile_length_le Char.isWhitespace t) htlen
          exact ih (t.dropWhile Char.isWhitespace) hlen
            (norun_dropWhile Char.isWhitespace t ht) j2
      · rw [collapseWS_cons_not c t hc]
        cases j with
        | succ j2 =>
          rw [List.drop_succ_cons]
          exact ih t htlen ht j2
        | zero =>
          rw [List.drop_zero]
          cases hv2 : startsRun4 (c :: collapseWS t) with
          | false => rfl
          | true =>
            exfalso
            obtain ⟨a, b, c2, d, rest, hsh, ha, hb, hc2, hd⟩ := startsRun4_shape _ hv2
            injection hsh with h1 h2
            have h3 : ((collapseWS t).take 3).all Char.isDigit = true := by
              rw [h2]; simp [hb, hc2, hd]
            have h4 : [b, c2, d] = t.take 3 := by
              rw [← collapse_take_digits t 3 h3, h2]
              rfl
            have h5 : t = b :: c2 :: d :: t.drop 3 := by
              conv_lhs => rw [← List.take_append_drop 3 t]
              rw [← h4]
              rfl
            have hcd : c.isDigit = true := by rw [h1]; exact ha
            have h6 : startsRun4 (c :: t) = true := by
              rw [h5]
              simp [startsRun4, hcd, hb, hc2, hd]
            have h7 := h 0
            rw [List.drop_zero, h6] at h7
            cases h7

theorem collapse_idem (v : List Char) :
    collapseWS (collapseWS v) = collapseWS v := by
  suffices H : ∀ n (s : List Char), s.length ≤ n →
      collapseWS (collapseWS s) = collapseWS s by
    exact H v.length v le_rfl
  intro n
  induction n with
  | zero =>
    intro s hs
    have hnil : s = [] := List.eq_nil_of_length_eq_zero (Nat.le_zero.1 hs)
    subst hnil
    rfl
  | succ n ih =>
    intro s hs
    cases s with
    | nil => rfl
    | cons c t =>
      have htlen : t.length ≤ n := Nat.le_of_succ_le_succ (by simpa using hs)
      by_cases hc : c.isWhitespace = true
      · rw [collapseWS_cons_ws c t hc]
        rw [collapseWS_cons_ws ' ' _ (by decide)]
        congr 1
        cases hw : t.dropWhile Char.isWhitespace with
        | nil => rfl
        | cons b r =>
          have hb : b.isWhitespace = false := by
            simpa using dropWhile_head_not Char.isWhitespace t b r hw
          have hb2 : ¬b.isWhitespace = true := by simp [hb]
          rw [collapseWS_cons_not b r hb2]
          rw [List.dropWhile_cons_of_neg (by simp [hb])]
          rw [collapseWS_cons_not b _ hb2]
          congr 1
          have h1 : (b :: r).length ≤ t.length := by
            rw [← hw]; exact dropWhile_length_le Char.isWhitespace t
          have h2 : r.length ≤ n :=
            le_trans (Nat.le_of_succ_le (by simpa using h1)) htlen
          exact ih r h2
      · rw [collapseWS_cons_not c t hc, collapseWS_cons_not c _ hc]
        congr 1
        exact ih t htlen

theorem ws_mem_collapseWSAux (s : List Char) :
    ∀ flag x, x ∈ collapseWSAux flag s → x.isWhitespace = true → x = ' ' := by
  induction s with
  | nil => intro flag x h _; simp [collapseWSAux] at h
  | cons c t ih =>
    intro flag x h hx
    by_cases hc : c.isWhitespace = true
    · cases flag with
      | true =>
        have h2 : collapseWSAux true (c :: t) = collapseWSAux true t := by
          simp [collapseWSAux, hc]
        rw [h2] at h
        exact ih true x h hx
      | false =>
        have h2 : collapseWSAux false (c :: t) = ' ' :: collapseWSAux true t := by
          simp [collapseWSAux, hc]
        rw [h2] at h
        rcases List.mem_cons.1 h with h3 | h3
        · exact h3
        · exact ih true x h3 hx
    · have h2 : collapseWSAux flag (c :: t) = c :: collapseWSAux false t := by
        simp [collapseWSAux, hc]
      rw [h2] at h
      rcases List.mem_cons.1 h with h3 | h3
      · exact absurd (h3 ▸ hx) hc
      · exact ih false x h3 hx

theorem ws_mem_collapseWS (s : List Char) (x : Char) (h : x ∈ collapseWS s)
    (hx : x.isWhitespace = true) : x = ' ' :=
  ws_mem_collapseWSAux s false x h hx

theorem rstrip_append_sat (p : Char → Bool) (x : List Char) (c : Char)
    (hc : p c = true) : rstrip p (x ++ [c]) = rstrip p x := by
  induction x with
  | nil =>
    show rstrip p [c] = rstrip p []
    simp [rstrip, hc]
  | cons a x2 ih =>
    show rstrip p (a :: (x2 ++ [c])) = rstrip p (a :: x2)
    cases hr : rstrip p x2 with
    | nil =>
      have h1 : rstrip p (x2 ++ [c]) = [] := by rw [ih, hr]
      unfold rstrip
      rw [h1, hr]
    | cons b r =>
      have h1 : rstrip p (x2 ++ [c]) = b :: r := by rw [ih, hr]
      unfold rstrip
      rw [h1, hr]

theorem strip_idem (p : Char → Bool) (v : List Char) :
    rstrip p ((rstrip p (v.dropWhile p)).dropWhile p) = rstrip p (v.dropWhile p) := by
  rw [dropWhile_rstrip_comm, dropWhile_idem]
  exact rstrip_rstrip p p (v.dropWhile p) (fun _ _ h => h)

theorem stripSpaceDot_idem (v : List Char) :
    stripSpaceDot (stripSpaceDot v) = stripSpaceDot v := by
  unfold stripSpaceDot
  exact strip_idem isSpaceDot v

theorem sanitize_id (s : List Char) (h : ∀ c ∈ s, isForbidden c = false) :
    sanitize_filename s = s := by
  unfold sanitize_filename
  refine List.filter_eq_self.2 ?_
  intro a ha
  rw [h a ha]
  rfl

theorem mem_dotToSpace (x : Char) (w : List Char) (h : x ∈ dotToSpace w) :
    x = ' ' ∨ x ∈ w := by
  unfold dotToSpace at h
  obtain ⟨a, ha, ha2⟩ := List.mem_map.1 h
  by_cases had : a = '.'
  · rw [if_pos had] at ha2
    exact Or.inl ha2.symm
  · rw [if_neg had] at ha2
    exact Or.inr (ha2 ▸ ha)

theorem dotToSpace_id_of_no_dot (w : List Char) (h : ∀ c ∈ w, c ≠ '.') :
    dotToSpace w = w := by
  induction w with
  | nil => rfl
  | cons a t ih =>
    unfold dotToSpace
    rw [List.map_cons, if_neg (h a (List.mem_cons_self a t))]
    congr 1
    exact ih (fun c hc => h c (List.mem_cons_of_mem a hc))

theorem mem_stripBrackets (x : Char) (s : List Char) (h : x ∈ stripBrackets s) :
    x ∈ s ∧ x ≠ '[' ∧ x ≠ ']' := by
  unfold stripBrackets at h
  have h1 := List.mem_filter.1 h
  refine ⟨h1.1, ?_⟩
  have h2 := h1.2
  simp only [Bool.and_eq_true, decide_eq_true_eq] at h2
  exact h2

theorem stripBrackets_id (s : List Char) (h : ∀ c ∈ s, c ≠ '[' ∧ c ≠ ']') :
    stripBrackets s = s := by
  unfold stripBrackets
  refine List.filter_eq_self.2 ?_
  intro a ha
  simp [h a ha]

theorem stripBrackets_append (a b : List Char) :
    stripBrackets (a ++ b) = stripBrackets a ++ stripBrackets b := by
  unfold stripBrackets
  exact List.filter_append a b

theorem rfindIdx_eq_none_iff (p : Char → Bool) (s : List Char) :
    rfindIdx p s = none ↔ ∀ c ∈ s, p c = false := by
  induction s with
  | nil => simp [rfindIdx]
  | cons c t ih =>
    have hstep : rfindIdx p (c :: t) =
        (match rfindIdx p t with
         | some i => some (i + 1)
         | none => if p c then some 0 else none) := rfl
    cases ht : rfindIdx p t with
    | some i =>
      rw [hstep, ht]
      constructor
      · intro h; cases h
      · intro hall
        have hnone : rfindIdx p t = none :=
          ih.2 (fun x hx => hall x (List.mem_cons_of_mem c hx))
        rw [ht] at hnone; cases hnone
    | none =>
      rw [hstep, ht]
      by_cases hp : p c = true
      · rw [if_pos hp]
        constructor
        · intro h; cases h
        · intro hall
          have := hall c (List.mem_cons_self c t)
          rw [hp] at this; cases this
      · rw [if_neg hp]
        constructor
        · intro _ x hx
          rcases List.mem_cons.1 hx with h1 | h1
          · rw [h1]
            cases hv : p c with
            | false => rfl
            | true => exact absurd hv hp
          · exact ih.1 ht x h1
        · intro _; rfl

theorem rfindIdx_append_last (p : Char → Bool) (u : List Char) (c : Char) (v : List Char)
    (hc : p c = true) (hv : ∀ x ∈ v, p x = false) :
    rfindIdx p (u ++ c :: v) = some u.length := by
  induction u with
  | nil =>
    have hvnone : rfindIdx p v = none := (rfindIdx_eq_none_iff p v).2 hv
    show rfindIdx p (c :: v) = some 0
    have hstep : rfindIdx p (c :: v) =
        (match rfindIdx p v with
         | some i => some (i + 1)
         | none => if p c then some 0 else none) := rfl
    rw [hstep, hvnone, if_pos hc]
  | cons a u2 ih =>
    show rfindIdx p (a :: (u2 ++ c :: v)) = some (u2.length + 1)
    have hstep : rfindIdx p (a :: (u2 ++ c :: v)) =
        (match rfindIdx p (u2 ++ c :: v) with
         | some i => some (i + 1)
         | none => if p a then some 0 else none) := rfl
    rw [hstep, ih]

theorem rfindIdx_some_decomp (p : Char → Bool) (s : List Char) (i : Nat)
    (h : rfindIdx p s = some i) :
    ∃ u c v, s = u ++ c :: v ∧ u.length = i ∧ p c = true ∧ ∀ x ∈ v, p x = false := by
  induction s generalizing i with
  | nil => cases h
  | cons a t ih =>
    have hstep : rfindIdx p (a :: t) =
        (match rfindIdx p t with
         | some j => some (j + 1)
         | none => if p a then some 0 else none) := rfl
    cases ht : rfindIdx p t with
    | some j =>
      rw [hstep, ht] at h
      injection h with hi
      obtain ⟨u, c, v, h1, h2, h3, h4⟩ := ih j ht
      exact ⟨a :: u, c, v, by simp [h1], by simp; omega, h3, h4⟩
    | none =>
      rw [hstep, ht] at h
      by_cases hp : p a = true
      · rw [if_pos hp] at h
        injection h with hi
        refine ⟨[], a, t, rfl, by rw [← hi]; rfl, hp, ?_⟩
        exact fun x hx => (rfindIdx_eq_none_iff p t).1 ht x hx
      · rw [if_neg hp] at h
        cases h

theorem splitext_of_none (s : List Char)
    (hd : rfindIdx (fun c => decide (c = '.')) s = none) :
    splitext s = (s, []) := by
  unfold splitext
  rw [hd]

theorem splitext_of_some_pos (s : List Char) (d : Nat)
    (hd : rfindIdx (fun c => decide (c = '.')) s = some d)
    (hcond : sepIdxOf s ≤ d ∧
      (((s.drop (sepIdxOf s)).take (d - sepIdxOf s)).any (fun c => c ≠ '.')) = true) :
    splitext s = (s.take d, s.drop d) := by
  unfold splitext
  rw [hd]
  show (if sepIdxOf s ≤ d ∧
      (((s.drop (sepIdxOf s)).take (d - sepIdxOf s)).any (fun c => c ≠ '.')) = true then
      (s.take d, s.drop d) else (s, [])) = (s.take d, s.drop d)
  rw [if_pos hcond]

theorem splitext_of_some_neg (s : List Char) (d : Nat)
    (hd : rfindIdx (fun c => decide (c = '.')) s = some d)
    (hcond : ¬(sepIdxOf s ≤ d ∧
      (((s.drop (sepIdxOf s)).take (d - sepIdxOf s)).any (fun c => c ≠ '.')) = true)) :
    splitext s = (s, []) := by
  unfold splitext
  rw [hd]
  show (if sepIdxOf s ≤ d ∧
      (((s.drop (sepIdxOf s)).take (d - sepIdxOf s)).any (fun c => c ≠ '.')) = true then
      (s.take d, s.drop d) else (s, [])) = (s, [])
  rw [if_neg hcond]

theorem splitext_append (s : List Char) :
    (splitext s).1 ++ (splitext s).2 = s := by
  cases hd : rfindIdx (fun c => decide (c = '.')) s with
  | none => rw [splitext_of_none s hd]; simp
  | some d =>
    by_cases hc : sepIdxOf s ≤ d ∧
        (((s.drop (sepIdxOf s)).take (d - sepIdxOf s)).any (fun c => c ≠ '.')) = true
    · rw [splitext_of_some_pos s d hd hc]
      exact List.take_append_drop d s
    · rw [splitext_of_some_neg s d hd hc]
      simp

theorem splitext_snd_shape (s : List Char) :
    (splitext s).2 = [] ∨ ∃ tl, (splitext s).2 = '.' :: tl ∧ ∀ x ∈ tl, x ≠ '.' := by
  cases hd : rfindIdx (fun c => decide (c = '.')) s with
  | none => rw [splitext_of_none s hd]; exact Or.inl rfl
  | some d =>
    by_cases hc : sepIdxOf s ≤ d ∧
        (((s.drop (sepIdxOf s)).take (d - sepIdxOf s)).any (fun c => c ≠ '.')) = true
    · rw [splitext_of_some_pos s d hd hc]
      obtain ⟨u, c, v, h1, h2, h3, h4⟩ := rfindIdx_some_decomp _ s d hd
      have hcd : c = '.' := of_decide_eq_true h3
      right
      refine ⟨v, ?_, ?_⟩
      · show s.drop d = '.' :: v
        rw [h1, ← h2, List.drop_left, hcd]
      · intro x hx h6
        have := h4 x hx
        rw [h6] at this
        simp at this
    · rw [splitext_of_some_neg s d hd hc]
      exact Or.inl rfl

theorem sepIdxOf_of_no_slash (s : List Char) (h : ∀ x ∈ s, x ≠ '/') :
    sepIdxOf s = 0 := by
  unfold sepIdxOf
  rw [(rfindIdx_eq_none_iff _ s).2 (fun x hx => by simp [h x hx])]

theorem splitext_reassemble (X ext : List Char)
    (hXdot : ∀ x ∈ X, x ≠ '.') (hXne : X ≠ [])
    (hslash : ∀ x ∈ X ++ ext, x ≠ '/')
    (hext : ext = [] ∨ ∃ tl, ext = '.' :: tl ∧ ∀ x ∈ tl, x ≠ '.') :
    splitext (X ++ ext) = (X, ext) := by
  have hsep : sepIdxOf (X ++ ext) = 0 := sepIdxOf_of_no_slash _ hslash
  rcases hext with hnil | ⟨tl, htl, htl2⟩
  · subst hnil
    have hdot : rfindIdx (fun c => decide (c = '.')) (X ++ []) = none :=
      (rfindIdx_eq_none_iff _ _).2 (fun x hx => by
        simp [hXdot x (by simpa using hx)])
    rw [splitext_of_none _ hdot, List.append_nil]
  · subst htl
    have hdot : rfindIdx (fun c => decide (c = '.')) (X ++ '.' :: tl) = some X.length :=
      rfindIdx_append_last _ X '.' tl (by simp) (fun x hx => by simp [htl2 x hx])
    have hany : (X.any (fun c => c ≠ '.')) = true := by
      cases X with
      | nil => exact absurd rfl hXne
      | cons a t => simp [hXdot a (List.mem_cons_self a t)]
    rw [splitext_of_some_pos _ X.length hdot ?cond]
    · rw [List.take_left, List.drop_left]
    case cond =>
      rw [hsep]
      refine ⟨Nat.zero_le _, ?_⟩
      rw [List.drop_zero, Nat.sub_zero, List.take_left]
      exact hany

theorem wrappedYearAt_none_of_not_opener (c : Char) (s : List Char)
    (hc : c ≠ '[' ∧ c ≠ '(') : wrappedYearAt (c :: s) = none := by
  rcases s with _ | ⟨a, _ | ⟨b, _ | ⟨d, _ | ⟨e, _ | ⟨f2, r⟩⟩⟩⟩⟩ <;>
    simp [wrappedYearAt, hc.1, hc.2]

theorem findWrappedYear_cons_none (c : Char) (s : List Char)
    (hat : wrappedYearAt (c :: s) = none) :
    findWrappedYear (c :: s) = findWrappedYear s := by
  conv_lhs => rw [findWrappedYear]
  rw [hat]

theorem findWrappedYear_cons_some (c : Char) (s : List Char) (y : List Char)
    (hat : wrappedYearAt (c :: s) = some y) :
    findWrappedYear (c :: s) = some y := by
  conv_lhs => rw [findWrappedYear]
  rw [hat]

theorem findWrappedYear_append_no_opener (u t : List Char)
    (hu : ∀ x ∈ u, x ≠ '[' ∧ x ≠ '(') :
    findWrappedYear (u ++ t) = findWrappedYear t := by
  induction u with
  | nil => rfl
  | cons c u2 ih =>
    show findWrappedYear (c :: (u2 ++ t)) = findWrappedYear t
    rw [findWrappedYear_cons_none c (u2 ++ t)
      (wrappedYearAt_none_of_not_opener c _ (hu c (List.mem_cons_self c u2)))]
    exact ih (fun x hx => hu x (List.mem_cons_of_mem c hx))

theorem findWrappedYear_none_of_no_opener (s : List Char)
    (hs : ∀ x ∈ s, x ≠ '[' ∧ x ≠ '(') :
    findWrappedYear s = none := by
  have := findWrappedYear_append_no_opener s [] hs
  rwa [List.append_nil] at this

theorem wrappedYearAt_some_digits (t y : List Char) (h : wrappedYearAt t = some y) :
    y.length = 4 ∧ y.all Char.isDigit = true := by
  match t, h with
  | o :: a :: b :: c :: d :: e :: rest, h =>
    simp only [wrappedYearAt] at h
    by_cases hcond : ((o = '[' || o = '(') && a.isDigit && b.isDigit && c.isDigit
        && d.isDigit && (e = ']' || e = ')')) = true
    · rw [if_pos hcond] at h
      injection h with hy
      simp only [Bool.and_eq_true, Bool.or_eq_true, decide_eq_true_eq] at hcond
      subst hy
      refine ⟨rfl, ?_⟩
      simp [hcond.1.1.1.1.2, hcond.1.1.1.2, hcond.1.1.2, hcond.1.2]
    · rw [if_neg hcond] at h
      cases h

theorem findWrappedYear_some_digits (s y : List Char) (h : findWrappedYear s = some y) :
    y.length = 4 ∧ y.all Char.isDigit = true := by
  induction s with
  | nil => cases h
  | cons c t ih =>
    cases hat : wrappedYearAt (c :: t) with
    | some y2 =>
      rw [findWrappedYear_cons_some c t y2 hat] at h
      injection h with hy
      exact hy ▸ wrappedYearAt_some_digits (c :: t) y2 hat
    | none =>
      rw [findWrappedYear_cons_none c t hat] at h
      exact ih h

theorem norun_take_of_min (s : List Char) (i : Nat)
    (hmin : ∀ j, j < i → startsRun4 (s.drop j) = false) :
    ∀ j, startsRun4 ((s.take i).drop j) = false := by
  intro j
  by_cases hj : j < i
  · cases hv : startsRun4 ((s.take i).drop j) with
    | false => rfl
    | true =>
      exfalso
      rw [List.drop_take] at hv
      have := startsRun4_of_take (s.drop j) (i - j) hv
      rw [hmin j hj] at this
      cases this
  · have hlen : (s.take i).length ≤ j := by
      have := List.length_take i s
      omega
    rw [List.drop_eq_nil_of_le hlen]
    rfl

theorem findRun4_title_year (T Y : List Char)
    (hT : ∀ j, startsRun4 (T.drop j) = false)
    (hY : startsRun4 Y = true) :
    findRun4 (T ++ ' ' :: Y) = some (T.length + 1) := by
  apply findRun4_eq_some
  · have hdrop : (T ++ ' ' :: Y).drop (T.length + 1) = Y := by
      rw [← List.drop_drop, List.drop_left]
      rfl
    rw [hdrop]
    exact hY
  · intro j hj
    have hj2 : j ≤ T.length := Nat.lt_succ_iff.1 hj
    have hsplit : (T ++ ' ' :: Y).drop j = T.drop j ++ ' ' :: Y :=
      List.drop_append_of_le_length hj2
    rw [hsplit]
    by_cases hlen : 4 ≤ (T.drop j).length
    · rw [startsRun4_append_long _ _ hlen]
      exact hT j
    · exact startsRun4_space_within (T.drop j) Y (by omega)

theorem title_refeed (u0 : List Char) (hdot : ∀ c ∈ u0, c ≠ '.') :
    collapseWS (stripSpaceDot (stripWS
      (collapseWS (stripSpaceDot (stripWS u0)) ++ [' ']))) =
    collapseWS (stripSpaceDot (stripWS u0)) := by
  have hTalt : collapseWS (stripSpaceDot (stripWS u0)) =
      stripSpaceDot (collapseWS u0) := title_order_eq u0 hdot
  have hmemT : ∀ x ∈ stripSpaceDot (collapseWS u0), x ∈ collapseWS u0 := by
    intro x hx
    unfold stripSpaceDot at hx
    exact mem_dropWhile_imp _ _ x (mem_rstrip _ _ x hx)
  have hA : stripWS (stripSpaceDot (collapseWS u0) ++ [' ']) =
      stripSpaceDot (collapseWS u0) := by
    have hrr : rstrip Char.isWhitespace (stripSpaceDot (collapseWS u0)) =
        stripSpaceDot (collapseWS u0) := by
      unfold stripSpaceDot
      refine rstrip_rstrip Char.isWhitespace isSpaceDot _ ?_
      intro x hx hws
      have hx2 : x ∈ collapseWS u0 := mem_dropWhile_imp _ _ x hx
      rw [ws_mem_collapseWS u0 x hx2 hws]
      decide
    cases hTc : stripSpaceDot (collapseWS u0) with
    | nil => decide
    | cons c t =>
      have hc_not_p2 : isSpaceDot c = false := by
        obtain ⟨m, hm⟩ := rstrip_eq_take isSpaceDot ((collapseWS u0).dropWhile isSpaceDot)
        have hTc2 : rstrip isSpaceDot ((collapseWS u0).dropWhile isSpaceDot) = c :: t := hTc
        rw [hm] at hTc2
        cases hX : (collapseWS u0).dropWhile isSpaceDot with
        | nil =>
          rw [hX, List.take_nil] at hTc2
          cases hTc2
        | cons x0 X2 =>
          rw [hX] at hTc2
          cases m with
          | zero => cases hTc2
          | succ m2 =>
            rw [List.take_succ_cons] at hTc2
            injection hTc2 with h1 h2
            rw [← h1]
            exact dropWhile_head_not isSpaceDot (collapseWS u0) x0 X2 hX
      have hc_ws : c.isWhitespace = false := by
        cases hv : c.isWhitespace with
        | false => rfl
        | true =>
          have hcmem : c ∈ collapseWS u0 :=
            hmemT c (by rw [hTc]; exact List.mem_cons_self c t)
          have hsp := ws_mem_collapseWS u0 c hcmem hv
          rw [hsp] at hc_not_p2
          exact absurd hc_not_p2 (by decide)
      rw [hTc] at hrr
      unfold stripWS
      rw [List.cons_append]
      rw [List.dropWhile_cons_of_neg (by simp [hc_ws])]
      rw [← List.cons_append]
      rw [rstrip_append_sat Char.isWhitespace (c :: t) ' ' (by decide)]
      exact hrr
  calc collapseWS (stripSpaceDot (stripWS (collapseWS (stripSpaceDot (stripWS u0)) ++ [' '])))
      = collapseWS (stripSpaceDot (stripWS (stripSpaceDot (collapseWS u0) ++ [' ']))) := by
        rw [hTalt]
    _ = collapseWS (stripSpaceDot (stripSpaceDot (collapseWS u0))) := by rw [hA]
    _ = collapseWS (stripSpaceDot (collapseWS u0)) := by rw [stripSpaceDot_idem]
    _ = collapseWS (collapseWS (stripSpaceDot (stripWS u0))) := by rw [← hTalt]
    _ = collapseWS (stripSpaceDot (stripWS u0)) := collapse_idem _

theorem mem_title_chain (w : List Char) (x : Char)
    (h : x ∈ collapseWS (stripSpaceDot (stripWS (dotToSpace w)))) :
    x = ' ' ∨ x ∈ w := by
  rcases mem_collapseWS x _ h with h1 | h1
  · exact Or.inl h1
  · have h2 : x ∈ dotToSpace w := by
      unfold stripSpaceDot stripWS at h1
      exact mem_dropWhile_imp _ _ x (mem_rstrip _ _ x
        (mem_dropWhile_imp _ _ x (mem_rstrip _ _ x h1)))
    exact mem_dotToSpace x w h2

theorem mem_title_no_dot (w : List Char) (x : Char)
    (h : x ∈ collapseWS (stripSpaceDot (stripWS (dotToSpace w)))) : x ≠ '.' := by
  rcases mem_collapseWS x _ h with h1 | h1
  · rw [h1]; decide
  · have h2 : x ∈ dotToSpace w := by
      unfold stripSpaceDot stripWS at h1
      exact mem_dropWhile_imp _ _ x (mem_rstrip _ _ x
        (mem_dropWhile_imp _ _ x (mem_rstrip _ _ x h1)))
    exact dotToSpace_no_dot w x h2

theorem digit_not_forbidden (c : Char) (h : c.isDigit = true) : isForbidden c = false := by
  cases hv : isForbidden c with
  | false => rfl
  | true =>
    exfalso
    simp only [isForbidden, Bool.or_eq_true, decide_eq_true_eq] at hv
    rcases hv with ((((((((h1 | h1) | h1) | h1) | h1) | h1) | h1) | h1) | h1) <;>
      (rw [h1] at h; exact absurd h (by decide))

theorem drop_append_succ (T : List Char) (c : Char) (Y : List Char) :
    (T ++ c :: Y).drop (T.length + 1) = Y := by
  rw [← List.drop_drop, List.drop_left]
  rfl

theorem take_append_succ (T : List Char) (c : Char) (Y : List Char) :
    (T ++ c :: Y).take (T.length + 1) = T ++ [c] := by
  rw [List.take_append_eq_append_take, List.take_of_length_le (Nat.le_succ _),
    Nat.add_sub_cancel_left]
  rfl

theorem movie_else_branch (filename stem ext : List Char) (i : Nat)
    (hsplit : splitext filename = (stem, ext))
    (hstart : startsRun4 (stripBrackets stem) = false)
    (hfind : findRun4 (stripBrackets stem) = some i) :
    movie_new_filename filename = some (sanitize_filename
      (collapseWS (stripSpaceDot (stripWS (dotToSpace ((stripBrackets stem).take i)))) ++
        ' ' :: '[' :: ((((stripBrackets stem).drop i).take 4) ++ ']' :: ext))) := by
  simp only [movie_new_filename, hsplit]
  rw [hstart]
  simp only [Bool.false_eq_true, if_false]
  rw [hfind]

theorem movie_else_none (filename stem ext : List Char)
    (hsplit : splitext filename = (stem, ext))
    (hstart : startsRun4 (stripBrackets stem) = false)
    (hfind : findRun4 (stripBrackets stem) = none) :
    movie_new_filename filename = none := by
  simp only [movie_new_filename, hsplit]
  rw [hstart]
  simp only [Bool.false_eq_true, if_false]
  rw [hfind]

theorem movie_lead_branch (filename stem ext : List Char)
    (hsplit : splitext filename = (stem, ext))
    (hstart : startsRun4 (stripBrackets stem) = true) :
    movie_new_filename filename =
      some (sanitize_filename
        (stripWS ((stripBrackets stem).take 4) ++
          (match findWrappedYear stem with
           | some y => ' ' :: '[' :: (y ++ ']' :: ext)
           | none => ext))) := by
  simp only [movie_new_filename, hsplit]
  rw [hstart]
  simp only [if_true]
  cases hfw : findWrappedYear stem with
  | some y => simp
  | none => simp

theorem stripBrackets_digits (L : List Char) (hL : ∀ x ∈ L, x.isDigit = true) :
    stripBrackets L = L :=
  stripBrackets_id L (fun c hc =>
    ⟨(digit_ne_special c (hL c hc)).2.2.1, (digit_ne_special c (hL c hc)).2.2.2.1⟩)

theorem stripBrackets_block (Y : List Char) (hYd : ∀ x ∈ Y, x.isDigit = true) :
    stripBrackets (' ' :: '[' :: (Y ++ [']'])) = ' ' :: Y := by
  unfold stripBrackets
  rw [List.filter_cons_of_pos (by decide), List.filter_cons_of_neg (by decide),
    List.filter_append, List.filter_cons_of_neg (by decide), List.filter_nil,
    List.append_nil]
  congr 1
  refine List.filter_eq_self.2 ?_
  intro a ha
  have hsp := digit_ne_special a (hYd a ha)
  simp [hsp.2.2.1, hsp.2.2.2.1]

/-- Claim C9, corrected: movie_new_filename is idempotent on inputs free of
the Windows-forbidden characters.  When movie_new_filename maps such a
filename to g, it maps g back to g: sanitization is then the identity, so the
regenerated name parses back into the same title, year and extension.  (With
forbidden characters present the claim fails, see c9_counterexample.) -/
theorem c9_idempotent_no_forbidden (f g : List Char)
    (hnf : ∀ c ∈ f, isForbidden c = false)
    (h : movie_new_filename f = some g) :
    movie_new_filename g = some g := by
  cases hsp : splitext f with
  | mk stem ext =>
  have hfeq : stem ++ ext = f := by
    have h0 := splitext_append f
    rw [hsp] at h0
    exact h0
  have hnf_stem : ∀ c ∈ stem, isForbidden c = false := by
    intro c hc
    exact hnf c (by rw [← hfeq]; exact List.mem_append_left _ hc)
  have hnf_ext : ∀ c ∈ ext, isForbidden c = false := by
    intro c hc
    exact hnf c (by rw [← hfeq]; exact List.mem_append_right _ hc)
  have hext_shape : ext = [] ∨ ∃ tl, ext = '.' :: tl ∧ ∀ x ∈ tl, x ≠ '.' := by
    have h0 := splitext_snd_shape f
    rw [hsp] at h0
    exact h0
  have hnotsl : ∀ c : Char, isForbidden c = false → c ≠ '/' := by
    intro c hc he
    rw [he] at hc
    exact absurd hc (by decide)
  have hmem_clean : ∀ c ∈ stripBrackets stem, isForbidden c = false := by
    intro c hc
    exact hnf_stem c (mem_stripBrackets c stem hc).1
  cases hstart : startsRun4 (stripBrackets stem) with
  | true =>
    obtain ⟨a, b, c0, d, rest, hshape, ha, hb, hc0, hd⟩ := startsRun4_shape _ hstart
    have htake4 : (stripBrackets stem).take 4 = [a, b, c0, d] := by rw [hshape]; rfl
    have hld : ∀ x ∈ ([a, b, c0, d] : List Char), x.isDigit = true := by
      intro x hx
      simp only [List.mem_cons, List.not_mem_nil, or_false] at hx
      rcases hx with h1 | h1 | h1 | h1 <;> (rw [h1]; assumption)
    have hidlead : stripWS ([a, b, c0, d] : List Char) = [a, b, c0, d] := by
      refine stripWS_eq_self_of_no_ws _ ?_
      intro x hx
      exact digit_not_ws x (hld x hx)
    have hld_nf : ∀ x ∈ ([a, b, c0, d] : List Char), isForbidden x = false := by
      intro x hx
      exact digit_not_forbidden x (hld x hx)
    cases hfw : findWrappedYear stem with
    | some Y =>
      obtain ⟨hYlen, hYall⟩ := findWrappedYear_some_digits stem Y hfw
      have hYd : ∀ x ∈ Y, x.isDigit = true := by
        intro x hx
        exact List.all_eq_true.1 hYall x hx
      have hnfP : ∀ x ∈ ([a, b, c0, d] ++ ' ' :: '[' :: (Y ++ ']' :: ext)),
          isForbidden x = false := by
        intro x hx
        rcases List.mem_append.1 hx with h1 | h1
        · exact hld_nf x h1
        · simp only [List.mem_cons] at h1
          rcases h1 with h1 | h1 | h1
          · rw [h1]; decide
          · rw [h1]; decide
          · rcases List.mem_append.1 h1 with h2 | h2
            · exact digit_not_forbidden x (hYd x h2)
            · simp only [List.mem_cons] at h2
              rcases h2 with h2 | h2
              · rw [h2]; decide
              · exact hnf_ext x h2
      have hg2 : g = [a, b, c0, d] ++ ' ' :: '[' :: (Y ++ ']' :: ext) := by
        rw [movie_lead_branch f stem ext hsp hstart, hfw, htake4, hidlead] at h
        injection h with h2
        rw [← h2]
        exact sanitize_id _ hnfP
      have hXassoc : ([a, b, c0, d] ++ ' ' :: '[' :: (Y ++ [']'])) ++ ext =
          [a, b, c0, d] ++ ' ' :: '[' :: (Y ++ ']' :: ext) := by simp
      have hsplitg : splitext g = ([a, b, c0, d] ++ ' ' :: '[' :: (Y ++ [']']), ext) := by
        rw [hg2, ← hXassoc]
        refine splitext_reassemble _ ext ?_ ?_ ?_ hext_shape
        · intro x hx
          rcases List.mem_append.1 hx with h1 | h1
          · exact (digit_ne_special x (hld x h1)).1
          · simp only [List.mem_cons] at h1
            rcases h1 with h1 | h1 | h1
            · rw [h1]; decide
            · rw [h1]; decide
            · rcases List.mem_append.1 h1 with h2 | h2
              · exact (digit_ne_special x (hYd x h2)).1
              · simp only [List.mem_singleton] at h2
                rw [h2]; decide
        · simp
        · intro x hx
          rw [hXassoc] at hx
          exact hnotsl x (hnfP x hx)
      have hclean2 : stripBrackets ([a, b, c0, d] ++ ' ' :: '[' :: (Y ++ [']'])) =
          [a, b, c0, d] ++ ' ' :: Y := by
        rw [stripBrackets_append, stripBrackets_digits _ hld, stripBrackets_block Y hYd]
      have hstart2 :
          startsRun4 (stripBrackets ([a, b, c0, d] ++ ' ' :: '[' :: (Y ++ [']']))) = true := by
        rw [hclean2]
        simp [startsRun4, ha, hb, hc0, hd]
      have htake4b :
          (stripBrackets ([a, b, c0, d] ++ ' ' :: '[' :: (Y ++ [']']))).take 4 =
            [a, b, c0, d] := by
        rw [hclean2]
        rfl
      have hfw2 : findWrappedYear ([a, b, c0, d] ++ ' ' :: '[' :: (Y ++ [']'])) = some Y := by
        have hXr : ([a, b, c0, d] ++ ' ' :: '[' :: (Y ++ [']'])) =
            ([a, b, c0, d] ++ [' ']) ++ '[' :: (Y ++ [']']) := by simp
        rw [hXr]
        rw [findWrappedYear_append_no_opener _ _ ?ho]
        case ho =>
          intro x hx
          rcases List.mem_append.1 hx with h1 | h1
          · have hs := digit_ne_special x (hld x h1)
            exact ⟨hs.2.2.1, hs.2.2.2.2.1⟩
          · simp only [List.mem_singleton] at h1
            rw [h1]
            exact ⟨by decide, by decide⟩
        exact findWrappedYear_cons_some '[' (Y ++ [']']) Y
          (wrappedYearAt_head '[' Y ']' [] (Or.inl rfl) (Or.inl rfl) hYlen hYall)
      rw [movie_lead_branch g _ ext hsplitg hstart2, hfw2, htake4b, hidlead, hg2]
      show some (sanitize_filename ([a, b, c0, d] ++ ' ' :: '[' :: (Y ++ ']' :: ext))) =
        some ([a, b, c0, d] ++ ' ' :: '[' :: (Y ++ ']' :: ext))
      rw [sanitize_id _ hnfP]
    | none =>
      have hnfP : ∀ x ∈ ([a, b, c0, d] ++ ext), isForbidden x = false := by
        intro x hx
        rcases List.mem_append.1 hx with h1 | h1
        · exact hld_nf x h1
        · exact hnf_ext x h1
      have hg2 : g = [a, b, c0, d] ++ ext := by
        rw [movie_lead_branch f stem ext hsp hstart, hfw, htake4, hidlead] at h
        injection h with h2
        rw [← h2]
        exact sanitize_id _ hnfP
      have hsplitg : splitext g = ([a, b, c0, d], ext) := by
        rw [hg2]
        refine splitext_reassemble _ ext ?_ ?_ ?_ hext_shape
        · intro x hx
          exact (digit_ne_special x (hld x hx)).1
        · simp
        · intro x hx
          exact hnotsl x (hnfP x hx)
      have hcl : stripBrackets ([a, b, c0, d] : List Char) = [a, b, c0, d] :=
        stripBrackets_digits _ hld
      have hstart2 : startsRun4 (stripBrackets ([a, b, c0, d] : List Char)) = true := by
        rw [hcl]
        simp [startsRun4, ha, hb, hc0, hd]
      have hfw2 : findWrappedYear ([a, b, c0, d] : List Char) = none := by
        refine findWrappedYear_none_of_no_opener _ ?_
        intro x hx
        have hs := digit_ne_special x (hld x hx)
        exact ⟨hs.2.2.1, hs.2.2.2.2.1⟩
      rw [movie_lead_branch g _ ext hsplitg hstart2, hfw2, hcl,
        show (([a, b, c0, d] : List Char)).take 4 = [a, b, c0, d] from rfl, hidlead, hg2]
      show some (sanitize_filename ([a, b, c0, d] ++ ext)) = some ([a, b, c0, d] ++ ext)
      rw [sanitize_id _ hnfP]
  | false =>
    cases hfr : findRun4 (stripBrackets stem) with
    | none =>
      rw [movie_else_none f stem ext hsp hstart hfr] at h
      cases h
    | some i =>
      obtain ⟨hsr, hmin⟩ := findRun4_spec _ i hfr
      obtain ⟨y1, y2, y3, y4, rest, hdshape, hy1, hy2, hy3, hy4⟩ := startsRun4_shape _ hsr
      have hYd : ∀ x ∈ ([y1, y2, y3, y4] : List Char), x.isDigit = true := by
        intro x hx
        simp only [List.mem_cons, List.not_mem_nil, or_false] at hx
        rcases hx with h1 | h1 | h1 | h1 <;> (rw [h1]; assumption)
      have hYtake : ((stripBrackets stem).drop i).take 4 = [y1, y2, y3, y4] := by
        rw [hdshape]; rfl
      have hYS : startsRun4 ([y1, y2, y3, y4] : List Char) = true := by
        simp [startsRun4, hy1, hy2, hy3, hy4]
      have hTmem : ∀ x ∈ collapseWS (stripSpaceDot (stripWS
          (dotToSpace ((stripBrackets stem).take i)))), isForbidden x = false := by
        intro x hx
        rcases mem_title_chain _ x hx with h1 | h1
        · rw [h1]; decide
        · exact hmem_clean x (List.mem_of_mem_take h1)
      have hTdot : ∀ x ∈ collapseWS (stripSpaceDot (stripWS
          (dotToSpace ((stripBrackets stem).take i)))), x ≠ '.' :=
        fun x hx => mem_title_no_dot _ x hx
      have hTbr : ∀ x ∈ collapseWS (stripSpaceDot (stripWS
          (dotToSpace ((stripBrackets stem).take i)))), x ≠ '[' ∧ x ≠ ']' := by
        intro x hx
        rcases mem_title_chain _ x hx with h1 | h1
        · rw [h1]; exact ⟨by decide, by decide⟩
        · have h2 := mem_stripBrackets x stem (List.mem_of_mem_take h1)
          exact ⟨h2.2.1, h2.2.2⟩
      have hnfP : ∀ x ∈ (collapseWS (stripSpaceDot (stripWS
          (dotToSpace ((stripBrackets stem).take i)))) ++
          ' ' :: '[' :: ([y1, y2, y3, y4] ++ ']' :: ext)), isForbidden x = false := by
        intro x hx
        rcases List.mem_append.1 hx with h1 | h1
        · exact hTmem x h1
        · simp only [List.mem_cons] at h1
          rcases h1 with h1 | h1 | h1
          · rw [h1]; decide
          · rw [h1]; decide
          · rcases List.mem_append.1 h1 with h2 | h2
            · exact digit_not_forbidden x (hYd x h2)
            · simp only [List.mem_cons] at h2
              rcases h2 with h2 | h2
              · rw [h2]; decide
              · exact hnf_ext x h2
      have hg2 : g = collapseWS (stripSpaceDot (stripWS
          (dotToSpace ((stripBrackets stem).take i)))) ++
          ' ' :: '[' :: ([y1, y2, y3, y4] ++ ']' :: ext) := by
        rw [movie_else_branch f stem ext i hsp hstart hfr, hYtake] at h
        injection h with h2
        rw [← h2]
        exact sanitize_id _ hnfP
      have hminT : ∀ j, startsRun4 (((stripBrackets stem).take i).drop j) = false :=
        norun_take_of_min _ i hmin
      have hno1 : ∀ j, startsRun4
          ((dotToSpace ((stripBrackets stem).take i)).drop j) = false :=
        norun_dotToSpace _ hminT
      have hno2 : ∀ j, startsRun4 ((stripWS
          (dotToSpace ((stripBrackets stem).take i))).drop j) = false := by
        intro j
        exact norun_rstrip Char.isWhitespace _
          (norun_dropWhile Char.isWhitespace _ hno1) j
      have hno3 : ∀ j, startsRun4 ((stripSpaceDot (stripWS
          (dotToSpace ((stripBrackets stem).take i)))).drop j) = false := by
        intro j
        exact norun_rstrip isSpaceDot _ (norun_dropWhile isSpaceDot _ hno2) j
      have hnoT : ∀ j, startsRun4 ((collapseWS (stripSpaceDot (stripWS
          (dotToSpace ((stripBrackets stem).take i))))).drop j) = false :=
        norun_collapse _ hno3
      have hfind2 : findRun4 (collapseWS (stripSpaceDot (stripWS
          (dotToSpace ((stripBrackets stem).take i)))) ++ ' ' :: [y1, y2, y3, y4]) =
          some ((collapseWS (stripSpaceDot (stripWS
            (dotToSpace ((stripBrackets stem).take i))))).length + 1) :=
        findRun4_title_year _ _ hnoT hYS
      have hXassoc : (collapseWS (stripSpaceDot (stripWS
          (dotToSpace ((stripBrackets stem).take i)))) ++
          ' ' :: '[' :: ([y1, y2, y3, y4] ++ [']'])) ++ ext =
          collapseWS (stripSpaceDot (stripWS
            (dotToSpace ((stripBrackets stem).take i)))) ++
          ' ' :: '[' :: ([y1, y2, y3, y4] ++ ']' :: ext) := by
        simp
      have hsplitg : splitext g = (collapseWS (stripSpaceDot (stripWS
          (dotToSpace ((stripBrackets stem).take i)))) ++
          ' ' :: '[' :: ([y1, y2, y3, y4] ++ [']']), ext) := by
        rw [hg2, ← hXassoc]
        refine splitext_reassemble _ ext ?_ ?_ ?_ hext_shape
        · intro x hx
          rcases List.mem_append.1 hx with h1 | h1
          · exact hTdot x h1
          · simp only [List.mem_cons] at h1
            rcases h1 with h1 | h1 | h1
            · rw [h1]; decide
            · rw [h1]; decide
            · rcases List.mem_append.1 h1 with h2 | h2
              · exact (digit_ne_special x (hYd x h2)).1
              · simp only [List.mem_singleton] at h2
                rw [h2]; decide
        · simp
        · intro x hx
          rw [hXassoc] at hx
          exact hnotsl x (hnfP x hx)
      have hclean2 : stripBrackets (collapseWS (stripSpaceDot (stripWS
          (dotToSpace ((stripBrackets stem).take i)))) ++
          ' ' :: '[' :: ([y1, y2, y3, y4] ++ [']'])) =
          collapseWS (stripSpaceDot (stripWS
            (dotToSpace ((stripBrackets stem).take i)))) ++
          ' ' :: [y1, y2, y3, y4] := by
        rw [stripBrackets_append, stripBrackets_id _ hTbr, stripBrackets_block _ hYd]
      have hstart2 : startsRun4 (stripBrackets (collapseWS (stripSpaceDot (stripWS
          (dotToSpace ((stripBrackets stem).take i)))) ++
          ' ' :: '[' :: ([y1, y2, y3, y4] ++ [']']))) = false := by
        rw [hclean2]
        have h0 := (findRun4_spec _ _ hfind2).2 0 (Nat.succ_pos _)
        rwa [List.drop_zero] at h0
      have hTd2 : ∀ x ∈ (collapseWS (stripSpaceDot (stripWS
          (dotToSpace ((stripBrackets stem).take i)))) ++ [' ']), x ≠ '.' := by
        intro x hx
        rcases List.mem_append.1 hx with h1 | h1
        · exact hTdot x h1
        · simp only [List.mem_singleton] at h1
          rw [h1]; decide
      rw [movie_else_branch g _ ext _ hsplitg hstart2 (by rw [hclean2]; exact hfind2)]
      rw [hclean2]
      rw [take_append_succ, drop_append_succ]
      rw [show (([y1, y2, y3, y4] : List Char)).take 4 = [y1, y2, y3, y4] from rfl]
      rw [dotToSpace_id_of_no_dot _ hTd2]
      rw [title_refeed _ (dotToSpace_no_dot _)]
      rw [hg2]
      rw [sanitize_id _ hnfP]

/-- Witness for c9_idempotent_no_forbidden at movie.2023.mp4. -/
theorem c9_idempotent_no_forbidden_witness :
    (∀ c ∈ ("movie.2023.mp4".data), isForbidden c = false) ∧
    movie_new_filename ("movie.2023.mp4".data) = some ("movie [2023].mp4".data) ∧
    movie_new_filename ("movie [2023].mp4".data) = some ("movie [2023].mp4".data) :=
  ⟨by decide, by decide,
    c9_idempotent_no_forbidden ("movie.2023.mp4".data) ("movie [2023].mp4".data)
      (by decide) (by decide)⟩
